import Mathlib

/-!
Verification of the linear layout engine of the unsegen terminal UI toolkit
(`src/widget/layouts.rs`): the demand model, the fair linear allocator
`layout_linearly`, the linear composer `draw_linearly` and the
horizontal/vertical layout facades.  All axis extents are modelled as `Nat`
(the Rust code uses non-negative axis differences).
-/

namespace Unsegen

/-- Per-axis size constraint of a widget: a minimum extent and an optional
maximum extent (absent means unbounded).  Mirrors `Demand<T>` of the source. -/
structure Demand where
  min : Nat
  max : Option Nat
deriving Repr, DecidableEq

/-- Constructor `Demand::exact(n)`: `min = max = n`. -/
def Demand.exact (n : Nat) : Demand := ⟨n, some n⟩

/-- Constructor `Demand::from_to(a, b)`: `min = a`, `max = b`. -/
def Demand.from_to (a b : Nat) : Demand := ⟨a, some b⟩

/-- Constructor `Demand::at_least(n)`: `min = n`, no maximum. -/
def Demand.at_least (n : Nat) : Demand := ⟨n, none⟩

/-- A demand is well-formed when its maximum, if present, is at least its
minimum (the documented invariant of `Demand`). -/
def Demand.valid (d : Demand) : Bool :=
  match d.max with
  | none => true
  | some m => d.min ≤ m

/-- Indexing into a demand list, defaulting to the trivial demand. -/
def dAt (ds : List Demand) (i : Nat) : Demand := ds.getD i ⟨0, none⟩

/-- The "unfinished" flag computed in the minimum pass of `layout_linearly`:
an element is unfinished when it has no maximum, or a maximum different from
its minimum. -/
def isUnfinishedFlag (d : Demand) : Bool :=
  match d.max with
  | some m => decide (m ≠ d.min)
  | none => true

/-- Result of the minimum pass (the first `for` loop of `layout_linearly`):
the assigned spaces, the indices flagged unfinished, the remaining available
space, the number of separators whose width was subtracted, and whether the
loop ran to completion (`completed = false` when the loop returned early
because the remaining space could not cover the next separator). -/
structure MinPassResult where
  assigned : List Nat
  unfinished : List Nat
  avail : Nat
  sepConsumed : Nat
  completed : Bool
deriving Repr

/-- The separator amount charged after an element: zero after the last
element (empty remainder), the full amount otherwise (mirrors the
`i == demands.len() - 1` test of the source). -/
def lastSep (rest : List Demand) (sep : Nat) : Nat :=
  match rest with
  | [] => 0
  | _ :: _ => sep

/-- The minimum pass of `layout_linearly`: walk the demands in order, assign
each the lesser of its minimum and the space still available, subtract a
separator width after each non-last element, and return early (leaving later
elements at `0`) when the remaining space is at most the pending separator
width. -/
def minPass (sep : Nat) : List Demand → Nat → MinPassResult
  | [], avail => ⟨[], [], avail, 0, true⟩
  | d :: rest, avail =>
    let a := Nat.min avail d.min
    let avail1 := avail - a
    let sepW := lastSep rest sep
    let unfHead : List Nat := if isUnfinishedFlag d then [0] else []
    if avail1 ≤ sepW then
      ⟨a :: List.replicate rest.length 0, unfHead, avail1, 0, false⟩
    else
      let r := minPass sep rest (avail1 - sepW)
      ⟨a :: r.assigned, unfHead ++ r.unfinished.map (· + 1), r.avail,
        lastSep rest 1 + r.sepConsumed, r.completed⟩

/-- Stable insertion of an index into a list sorted by `key` (ascending);
the inserted element goes before the first strictly-greater-or-equal key, so
an element inserted from further left in the original list keeps its place
among equal keys. -/
def insertByKey (key : Nat → Nat) (x : Nat) : List Nat → List Nat
  | [] => [x]
  | y :: ys => if key x ≤ key y then x :: y :: ys else y :: insertByKey key x ys

/-- Stable sort by `key`, modelling the stable `sort_by` call on the
`unfinished` vector. -/
def sortByKey (key : Nat → Nat) : List Nat → List Nat
  | [] => []
  | x :: xs => insertByKey key x (sortByKey key xs)

/-- State accumulated by the ladder-planning loop of `layout_linearly`:
`planned_to_spend`, `planned_increased_space` and `num_equalized`. -/
structure LadderResult where
  pts : Nat
  pinc : Nat
  ne : Nat
deriving Repr

/-- The ladder-planning loop: walk the sorted unfinished indices, compute the
cost of raising all previously visited elements up to the current element's
assigned space, and stop as soon as the accumulated cost would exceed the
available space. -/
def ladder (key : Nat → Nat) (avail : Nat) :
    List Nat → Nat → Nat → Nat → Nat → LadderResult
  | [], _, pts, pinc, ne => ⟨pts, pinc, ne⟩
  | idx :: rest, i, pts, pinc, ne =>
    let newSpace := key idx
    let diff := newSpace - pinc
    let cost := diff * i
    if avail < pts + cost then ⟨pts, pinc, ne⟩
    else ladder key avail rest (i + 1) (pts + cost) newSpace (i + 1)

/-- The per-element increase of the distribution step, together with whether
the element stays unfinished: an element with a maximum above the planned
space is raised to the planned space and kept; one with a maximum at or below
the planned space is raised to its maximum and dropped; one without a maximum
is raised to the planned space and kept.  The subtraction is truncated at
zero, mirroring `positive_or_zero`. -/
def increaseFor (dmax : Option Nat) (planned a : Nat) : Nat × Bool :=
  match dmax with
  | some m => if planned < m then (planned - a, true) else (m - a, false)
  | none => (planned - a, true)

/-- The distribution loop of `layout_linearly`: raise each unfinished element
according to `increaseFor`, subtract each increase from the available space,
and collect the indices that stay unfinished (in iteration order). -/
def distribute (demands : List Demand) (planned : Nat) :
    List Nat → List Nat → Nat → List Nat × Nat × List Nat
  | [], assigned, avail => (assigned, avail, [])
  | idx :: rest, assigned, avail =>
    let a := assigned.getD idx 0
    let p := increaseFor (dAt demands idx).max planned a
    let r := distribute demands planned rest (assigned.set idx (a + p.1)) (avail - p.1)
    (r.1, r.2.1, if p.2 then idx :: r.2.2 else r.2.2)

/-- Result of the equalization loop: the assigned spaces, the remaining
available space, the unfinished indices at exit, and whether the loop exited
through `break` (towards the remainder pass) rather than by running out of
unfinished elements. -/
structure EqualizeResult where
  assigned : List Nat
  avail : Nat
  unfinished : List Nat
  broke : Bool
deriving Repr

/-- The iterative ladder-equalization loop of `layout_linearly`.  The loop is
expressed with explicit fuel; `avail + unfinished.length + 1` units always
suffice (each iteration either spends available space or drops an unfinished
element), which is proved separately and is how `layoutFull` calls it. -/
def equalize (demands : List Demand) : Nat → List Nat → Nat → List Nat → EqualizeResult
  | 0, assigned, avail, unfinished => ⟨assigned, avail, unfinished, false⟩
  | fuel + 1, assigned, avail, unfinished =>
    let sorted := sortByKey (fun i => assigned.getD i 0) unfinished
    match sorted with
    | [] => ⟨assigned, avail, [], false⟩
    | idx0 :: rest0 =>
      let lr := ladder (fun i => assigned.getD i 0) avail (idx0 :: rest0) 0 0 0 0
      let left := avail - lr.pts
      let per := left / lr.ne
      let planned := lr.pinc + per
      let minSpace := assigned.getD idx0 0
      if minSpace = planned then ⟨assigned, avail, idx0 :: rest0, true⟩
      else
        let d := distribute demands planned (idx0 :: rest0) assigned avail
        equalize demands fuel d.1 d.2.1 d.2.2

/-- The remainder pass of `layout_linearly`: hand out the leftover space one
unit at a time to the unfinished elements, in order, until it is exhausted. -/
def remainderPass : List Nat → Nat → List Nat → List Nat × Nat
  | assigned, avail, [] => (assigned, avail)
  | assigned, avail, idx :: rest =>
    if avail = 0 then (assigned, avail)
    else remainderPass (assigned.set idx (assigned.getD idx 0 + 1)) (avail - 1) rest

/-- Result of the whole allocator, keeping the accounting data needed to
state conservation: the output vector, the number of separators consumed by
the minimum pass, the space left over at the very end, and whether the
minimum pass ran to completion. -/
structure LayoutResult where
  out : List Nat
  sepConsumed : Nat
  leftover : Nat
  completedMinPass : Bool
deriving Repr

/-- The full allocator `layout_linearly`, assembled from the three phases.
When the minimum pass returns early its assignment is the final answer;
otherwise the equalization loop runs and, if it exited through `break`, the
remainder pass distributes what is left. -/
def layoutFull (avail sep : Nat) (demands : List Demand) : LayoutResult :=
  let mp := minPass sep demands avail
  if mp.completed then
    let er := equalize demands (mp.avail + mp.unfinished.length + 1)
      mp.assigned mp.avail mp.unfinished
    if er.broke then
      let r := remainderPass er.assigned er.avail er.unfinished
      ⟨r.1, mp.sepConsumed, r.2, true⟩
    else ⟨er.assigned, mp.sepConsumed, er.avail, true⟩
  else ⟨mp.assigned, mp.sepConsumed, mp.avail, false⟩

/-- The allocation vector returned by `layout_linearly`. -/
def layout_linearly (avail sep : Nat) (demands : List Demand) : List Nat :=
  (layoutFull avail sep demands).out

/-! ### Checked variant

A twin of the allocator in the `Option` monad in which every subtraction that
the Rust code performs through `try_into_positive().unwrap()` or
`expect(..)` is a checked subtraction, the division checks its divisor, and
every `debug_assert!` is a guard.  `none` signals an underflow, a failed
assertion, or fuel exhaustion of the equalization loop. -/

/-- Checked subtraction: fails exactly when the Rust conversion back to a
positive axis difference would panic. -/
def csub (a b : Nat) : Option Nat := if b ≤ a then some (a - b) else none

/-- Checked minimum pass. -/
def minPassC (sep : Nat) : List Demand → Nat → Option MinPassResult
  | [], avail => some ⟨[], [], avail, 0, true⟩
  | d :: rest, avail => do
    let a := Nat.min avail d.min
    let avail1 ← csub avail a
    let sepW := lastSep rest sep
    let unfHead : List Nat := if isUnfinishedFlag d then [0] else []
    if avail1 ≤ sepW then
      some ⟨a :: List.replicate rest.length 0, unfHead, avail1, 0, false⟩
    else do
      let avail2 ← csub avail1 sepW
      let r ← minPassC sep rest avail2
      some ⟨a :: r.assigned, unfHead ++ r.unfinished.map (· + 1), r.avail,
        lastSep rest 1 + r.sepConsumed, r.completed⟩

/-- Checked ladder loop; the checked subtraction is the
`expect("Sorted, so >= 0")` of the source. -/
def ladderC (key : Nat → Nat) (avail : Nat) :
    List Nat → Nat → Nat → Nat → Nat → Option LadderResult
  | [], _, pts, pinc, ne => some ⟨pts, pinc, ne⟩
  | idx :: rest, i, pts, pinc, ne => do
    let newSpace := key idx
    let diff ← csub newSpace pinc
    let cost := diff * i
    if avail < pts + cost then some ⟨pts, pinc, ne⟩
    else ladderC key avail rest (i + 1) (pts + cost) newSpace (i + 1)

/-- Checked distribution loop; the subtraction from the available space is
the `try_into_positive().unwrap()` of the source (the increase itself uses
the truncating `positive_or_zero`). -/
def distributeC (demands : List Demand) (planned : Nat) :
    List Nat → List Nat → Nat → Option (List Nat × Nat × List Nat)
  | [], assigned, avail => some (assigned, avail, [])
  | idx :: rest, assigned, avail => do
    let a := assigned.getD idx 0
    let p := increaseFor (dAt demands idx).max planned a
    let avail1 ← csub avail p.1
    let r ← distributeC demands planned rest (assigned.set idx (a + p.1)) avail1
    some (r.1, r.2.1, if p.2 then idx :: r.2.2 else r.2.2)

/-- Checked equalization loop: checks the subtraction producing
`left_to_spend`, the divisor `num_equalized`, and the
`debug_assert!(min_space < planned_increased_space)`. -/
def equalizeC (demands : List Demand) : Nat → List Nat → Nat → List Nat → Option EqualizeResult
  | 0, _, _, _ => none
  | fuel + 1, assigned, avail, unfinished => do
    let sorted := sortByKey (fun i => assigned.getD i 0) unfinished
    match sorted with
    | [] => some ⟨assigned, avail, [], false⟩
    | idx0 :: rest0 => do
      let lr ← ladderC (fun i => assigned.getD i 0) avail (idx0 :: rest0) 0 0 0 0
      let left ← csub avail lr.pts
      if lr.ne = 0 then none
      else
        let per := left / lr.ne
        let planned := lr.pinc + per
        let minSpace := assigned.getD idx0 0
        if minSpace = planned then some ⟨assigned, avail, idx0 :: rest0, true⟩
        else if planned ≤ minSpace then none
        else do
          let d ← distributeC demands planned (idx0 :: rest0) assigned avail
          equalizeC demands fuel d.1 d.2.1 d.2.2

/-- Checked remainder pass: checks the
`debug_assert!(demand.max.is_none() || demand.max.unwrap() > assigned)`. -/
def remainderC (demands : List Demand) : List Nat → Nat → List Nat → Option (List Nat × Nat)
  | assigned, avail, [] => some (assigned, avail)
  | assigned, avail, idx :: rest =>
    if avail = 0 then some (assigned, avail)
    else
      let ok := match (dAt demands idx).max with
        | none => true
        | some m => decide (assigned.getD idx 0 < m)
      if ok then
        remainderC demands (assigned.set idx (assigned.getD idx 0 + 1)) (avail - 1) rest
      else none

/-- Checked allocator: checks, in addition, the final
`debug_assert!(available_space == 0)` on the path through the remainder
pass. -/
def layoutC (avail sep : Nat) (demands : List Demand) : Option (List Nat) := do
  let mp ← minPassC sep demands avail
  if mp.completed then do
    let er ← equalizeC demands (mp.avail + mp.unfinished.length + 1)
      mp.assigned mp.avail mp.unfinished
    if er.broke then do
      let r ← remainderC demands er.assigned er.avail er.unfinished
      if r.2 = 0 then some r.1 else none
    else some er.assigned
  else some mp.assigned

/-! ### Separating styles, the composer, and the layout facades -/

/-- Modelled from the spec: a grapheme cell is an atomic renderable unit
which exposes its own display width (possibly several columns); only its
width matters for layout. -/
structure GraphemeCluster where
  width : Nat
deriving Repr, DecidableEq

/-- Modelled from the spec: a style modifier is purely a rendering
instruction without layout consequence, so it carries no data here. -/
structure StyleModifier where
deriving Repr, DecidableEq

/-- The decoration between consecutive children: nothing, an alternating
style, or a drawn cell. -/
inductive SeparatingStyle where
  | None
  | AlternatingStyle (m : StyleModifier)
  | Draw (c : GraphemeCluster)
deriving Repr, DecidableEq

/-- `SeparatingStyle::width`: the horizontal extent a separator consumes. -/
def SeparatingStyle.width : SeparatingStyle → Nat
  | .None => 0
  | .AlternatingStyle _ => 0
  | .Draw c => c.width

/-- `SeparatingStyle::height`: the vertical extent a separator consumes. -/
def SeparatingStyle.height : SeparatingStyle → Nat
  | .None => 0
  | .AlternatingStyle _ => 0
  | .Draw _ => 1

/-- Whether the style is the `Draw` variant. -/
def SeparatingStyle.isDraw : SeparatingStyle → Bool
  | .Draw _ => true
  | _ => false

/-- One action of the composer `draw_linearly` on the main axis: either a
child draw (`index`, requested split offset, extent of the remaining window
at the time of the request) or a separator fill with its requested split
offset and the remaining extent. -/
inductive DrawEvent where
  | child (index offset ext : Nat)
  | sep (offset ext : Nat)
deriving Repr, DecidableEq

/-- The split/draw sequence of `draw_linearly` projected on the main axis:
for each widget, split off a head region of its assigned extent from the
remaining window; between two children, when the style is `Draw` and the
remaining extent is nonzero, split off a separator region of the separator's
length. -/
def composeEvents (drawSep : Bool) (sepLen : Nat) :
    List Nat → Nat → Nat → List DrawEvent
  | [], _, _ => []
  | pos :: rest, restLen, i =>
    let restLen1 := restLen - pos
    DrawEvent.child i pos restLen ::
      (if drawSep ∧ rest ≠ [] ∧ 0 < restLen1 then
        DrawEvent.sep sepLen restLen1 ::
          composeEvents drawSep sepLen rest (restLen1 - sepLen) (i + 1)
      else composeEvents drawSep sepLen rest restLen1 (i + 1))

/-- `HorizontalLayout::draw` via `draw_linearly`: widgets are represented by
their main-axis demands, the window by its width `L`. -/
def drawLinearlyH (L : Nat) (style : SeparatingStyle) (demands : List Demand) :
    List DrawEvent :=
  composeEvents style.isDraw style.width (layout_linearly L style.width demands) L 0

/-- `VerticalLayout::draw` via `draw_linearly`: the window is represented by
its height `L` and the separator by its height. -/
def drawLinearlyV (L : Nat) (style : SeparatingStyle) (demands : List Demand) :
    List DrawEvent :=
  composeEvents style.isDraw style.height (layout_linearly L style.height demands) L 0

/-- A split request is in bounds when its offset does not exceed the extent
of the region being split (the condition under which `split_h`/`split_v`
succeed). -/
def eventValid : DrawEvent → Bool
  | .child _ off ext => off ≤ ext
  | .sep off ext => off ≤ ext

/-- All split requests of a draw sequence are in bounds. -/
def splitsValid (es : List DrawEvent) : Bool := es.all eventValid

/-- The index of a child-draw event, if any. -/
def childIndexOf : DrawEvent → Option Nat
  | .child i _ _ => some i
  | .sep _ _ => none

/-- The requested offset of a child-draw event, if any. -/
def childOffsetOf : DrawEvent → Option Nat
  | .child _ off _ => some off
  | .sep _ _ => none

/-- The number of separator fills in a draw sequence. -/
def sepCount (es : List DrawEvent) : Nat :=
  (es.filter fun e => match e with | .sep _ _ => true | _ => false).length

/-- `true` when the sequence is empty or ends in a child draw (so no
separator is ever emitted after the last child). -/
def lastIsChildOrEmpty (es : List DrawEvent) : Bool :=
  match es.getLast? with
  | Option.none => true
  | some (.child _ _ _) => true
  | some (.sep _ _) => false

/-! ### Demand aggregation of the layout facades -/

/-- `Demand` addition (mins add; maxes add, unbounded absorbing).
Modelled from the spec: the `+` operator on demands. -/
def Demand.add (d1 d2 : Demand) : Demand :=
  ⟨d1.min + d2.min,
    match d1.max, d2.max with
    | some a, some b => some (a + b)
    | _, _ => Option.none⟩

/-- `Demand` pairwise maximum (mins max; maxes max, unbounded absorbing).
Modelled from the spec: the `max` operator on demands. -/
def Demand.maxD (d1 d2 : Demand) : Demand :=
  ⟨Nat.max d1.min d2.min,
    match d1.max, d2.max with
    | some a, some b => some (Nat.max a b)
    | _, _ => Option.none⟩

/-- A two-dimensional demand, the unit every widget reports. -/
structure Demand2D where
  width : Demand
  height : Demand
deriving Repr, DecidableEq

/-- The accumulation loop shared by the two `space_demand` implementations:
fold `Demand.add` over one axis, `Demand.maxD` over the other, and count the
elements. -/
def spaceDemandLoop (proj cross : Demand2D → Demand) :
    List Demand2D → Demand → Demand → Nat → Demand × Demand × Nat
  | [], tx, ty, n => (tx, ty, n)
  | w :: ws, tx, ty, n =>
    spaceDemandLoop proj cross ws (tx.add (proj w)) (ty.maxD (cross w)) (n + 1)

/-- `HorizontalLayout::space_demand`: sum the widths, max the heights, and
when the separating style is `Draw` add `Demand::exact(n_elements)` to the
width total. -/
def HorizontalLayout.space_demand (style : SeparatingStyle) (ws : List Demand2D) :
    Demand2D :=
  let r := spaceDemandLoop (fun w => w.width) (fun w => w.height) ws
    (Demand.exact 0) (Demand.exact 0) 0
  match style with
  | .Draw _ => ⟨r.1.add (Demand.exact r.2.2), r.2.1⟩
  | _ => ⟨r.1, r.2.1⟩

/-- `VerticalLayout::space_demand`: max the widths, sum the heights, and
when the separating style is `Draw` add `Demand::exact(n_elements)` to the
height total. -/
def VerticalLayout.space_demand (style : SeparatingStyle) (ws : List Demand2D) :
    Demand2D :=
  let r := spaceDemandLoop (fun w => w.height) (fun w => w.width) ws
    (Demand.exact 0) (Demand.exact 0) 0
  match style with
  | .Draw _ => ⟨r.2.1, r.1.add (Demand.exact r.2.2)⟩
  | _ => ⟨r.2.1, r.1⟩

/-! ### Spec-side predicates (used only to state the claims) -/

/-- Modelled from the spec: an element is still unfinished at the end when
its output is strictly below its maximum, or its maximum is absent. -/
def specUnfinishedB (ds : List Demand) (out : List Nat) (i : Nat) : Bool :=
  match (dAt ds i).max with
  | Option.none => true
  | some m => decide (out.getD i 0 < m)

/-- Modelled from the spec: some element of the output is still
unfinished. -/
def existsSpecUnfinished (ds : List Demand) (out : List Nat) : Bool :=
  (List.range ds.length).any fun i => specUnfinishedB ds out i

/-- Modelled from the spec: the demand-sum of a list of demands, in closed
form — minima add up, and the sum of the maxima exists exactly when every
maximum does. -/
def sumDemands (l : List Demand) : Demand :=
  ⟨(l.map Demand.min).sum,
    if l.all fun d => d.max.isSome then
      some ((l.map fun d => d.max.getD 0).sum)
    else Option.none⟩

/-- Modelled from the spec: the demand-maximum of a list of demands, in
closed form (with `0` as the neutral seed, matching the `exact(0)` seed of
the loops). -/
def maxDemands (l : List Demand) : Demand :=
  ⟨(l.map Demand.min).foldr Nat.max 0,
    if l.all fun d => d.max.isSome then
      some ((l.map fun d => d.max.getD 0).foldr Nat.max 0)
    else Option.none⟩

/-- All demands of a list are well-formed. -/
def allValid (ds : List Demand) : Bool := ds.all Demand.valid


/-! ### List helper lemmas -/

theorem dAt_cons_zero (d : Demand) (rest : List Demand) : dAt (d :: rest) 0 = d := rfl

theorem dAt_cons_succ (d : Demand) (rest : List Demand) (j : Nat) :
    dAt (d :: rest) (j + 1) = dAt rest j := rfl

theorem getD_set_self {l : List Nat} {i : Nat} (h : i < l.length) (v d : Nat) :
    (l.set i v).getD i d = v := by
  simp [List.getD_eq_getElem?_getD, List.getElem?_set_self h]

theorem getD_set_ne {l : List Nat} {i j : Nat} (h : i ≠ j) (v d : Nat) :
    (l.set i v).getD j d = l.getD j d := by
  simp only [List.getD_eq_getElem?_getD, List.getElem?_set_ne h]

theorem sum_set_getD {l : List Nat} {i : Nat} (h : i < l.length) (v : Nat) :
    (l.set i v).sum + l.getD i 0 = l.sum + v := by
  induction l generalizing i with
  | nil => simp at h
  | cons x xs ih =>
    cases i with
    | zero => simp [List.set]; omega
    | succ j =>
      simp only [List.length_cons, Nat.succ_lt_succ_iff] at h
      have := ih h
      simp only [List.set, List.getD_cons_succ, List.sum_cons]
      omega

theorem getD_replicate_zero (n i : Nat) :
    (List.replicate n (0 : Nat)).getD i 0 = 0 := by
  induction n generalizing i with
  | zero => simp [List.getD]
  | succ m ih =>
    cases i with
    | zero => simp [List.replicate]
    | succ j => simpa [List.replicate] using ih j

theorem dAt_mem {ds : List Demand} {i : Nat} (h : i < ds.length) : dAt ds i ∈ ds := by
  simp only [dAt, List.getD_eq_getElem?_getD, List.getElem?_eq_getElem h, Option.getD_some]
  exact List.getElem_mem h

/-! ### Minimum-pass lemmas -/

theorem lastSep_nil (sep : Nat) : lastSep [] sep = 0 := rfl

theorem lastSep_cons (d : Demand) (rest : List Demand) (sep : Nat) :
    lastSep (d :: rest) sep = sep := rfl

theorem minPass_nil (sep avail : Nat) : minPass sep [] avail = ⟨[], [], avail, 0, true⟩ := rfl

theorem minPass_cons_early (sep avail : Nat) (d : Demand) (rest : List Demand)
    (h : avail - Nat.min avail d.min ≤ lastSep rest sep) :
    minPass sep (d :: rest) avail =
      ⟨Nat.min avail d.min :: List.replicate rest.length 0,
        if isUnfinishedFlag d then [0] else [],
        avail - Nat.min avail d.min, 0, false⟩ := by
  simp only [minPass, if_pos h]

theorem minPass_cons_step (sep avail : Nat) (d : Demand) (rest : List Demand)
    (h : ¬ (avail - Nat.min avail d.min ≤ lastSep rest sep)) :
    minPass sep (d :: rest) avail =
      ⟨Nat.min avail d.min ::
          (minPass sep rest (avail - Nat.min avail d.min - lastSep rest sep)).assigned,
        (if isUnfinishedFlag d then [0] else []) ++
          (minPass sep rest
            (avail - Nat.min avail d.min - lastSep rest sep)).unfinished.map (· + 1),
        (minPass sep rest (avail - Nat.min avail d.min - lastSep rest sep)).avail,
        lastSep rest 1 +
          (minPass sep rest (avail - Nat.min avail d.min - lastSep rest sep)).sepConsumed,
        (minPass sep rest (avail - Nat.min avail d.min - lastSep rest sep)).completed⟩ := by
  simp only [minPass, if_neg h]

theorem minPass_length (sep : Nat) (ds : List Demand) (avail : Nat) :
    (minPass sep ds avail).assigned.length = ds.length := by
  induction ds generalizing avail with
  | nil => rfl
  | cons d rest ih =>
    by_cases h : avail - Nat.min avail d.min ≤ lastSep rest sep
    · rw [minPass_cons_early sep avail d rest h]
      simp
    · rw [minPass_cons_step sep avail d rest h]
      simpa using ih _

theorem minPass_accounting (sep : Nat) (ds : List Demand) (avail : Nat) :
    (minPass sep ds avail).assigned.sum
      + sep * (minPass sep ds avail).sepConsumed
      + (minPass sep ds avail).avail = avail := by
  induction ds generalizing avail with
  | nil => simp [minPass_nil]
  | cons d rest ih =>
    have hmin : Nat.min avail d.min ≤ avail := Nat.min_le_left _ _
    by_cases h : avail - Nat.min avail d.min ≤ lastSep rest sep
    · rw [minPass_cons_early sep avail d rest h]
      simp only [List.sum_cons, List.sum_replicate, smul_eq_mul, Nat.mul_zero,
        Nat.add_zero]
      omega
    · rw [minPass_cons_step sep avail d rest h]
      cases rest with
      | nil =>
        simp only [lastSep_nil] at h ⊢
        have := ih (avail - Nat.min avail d.min - 0)
        simp only [List.sum_cons, Nat.mul_zero, minPass_nil] at this ⊢
        omega
      | cons d2 rest2 =>
        simp only [lastSep_cons] at h ⊢
        have := ih (avail - Nat.min avail d.min - sep)
        simp only [List.sum_cons]
        rw [Nat.mul_add, Nat.mul_one]
        omega

theorem minPass_unfinished_mem (sep : Nat) (ds : List Demand) (avail : Nat) :
    ∀ idx ∈ (minPass sep ds avail).unfinished,
      idx < ds.length ∧ isUnfinishedFlag (dAt ds idx) = true := by
  induction ds generalizing avail with
  | nil => simp [minPass_nil]
  | cons d rest ih =>
    intro idx hmem
    by_cases h : avail - Nat.min avail d.min ≤ lastSep rest sep
    · rw [minPass_cons_early sep avail d rest h] at hmem
      simp only at hmem
      split at hmem
      · rename_i hflag
        simp only [List.mem_singleton] at hmem
        subst hmem
        exact ⟨Nat.succ_pos _, by simpa [dAt_cons_zero] using hflag⟩
      · simp at hmem
    · rw [minPass_cons_step sep avail d rest h] at hmem
      simp only [List.mem_append] at hmem
      rcases hmem with hmem | hmem
      · split at hmem
        · rename_i hflag
          simp only [List.mem_singleton] at hmem
          subst hmem
          exact ⟨Nat.succ_pos _, by simpa [dAt_cons_zero] using hflag⟩
        · simp at hmem
      · simp only [List.mem_map] at hmem
        obtain ⟨j, hj, rfl⟩ := hmem
        obtain ⟨hlt, hflag⟩ := ih _ _ hj
        exact ⟨by simpa using Nat.succ_lt_succ hlt, by simpa [dAt_cons_succ] using hflag⟩

theorem minPass_unfinished_sorted (sep : Nat) (ds : List Demand) (avail : Nat) :
    (minPass sep ds avail).unfinished.Pairwise (· < ·) := by
  induction ds generalizing avail with
  | nil => simp [minPass_nil]
  | cons d rest ih =>
    by_cases h : avail - Nat.min avail d.min ≤ lastSep rest sep
    · rw [minPass_cons_early sep avail d rest h]
      split <;> simp
    · rw [minPass_cons_step sep avail d rest h]
      have hmap : (((minPass sep rest
          (avail - Nat.min avail d.min - lastSep rest sep)).unfinished.map
            (· + 1)).Pairwise (· < ·)) :=
        List.Pairwise.map _ (fun a b hab => by omega) (ih _)
      split
      · refine List.pairwise_cons.2 ⟨?_, hmap⟩
        intro b hb
        obtain ⟨j, _, rfl⟩ := List.mem_map.1 hb
        omega
      · exact hmap

theorem minPass_le_min (sep : Nat) (ds : List Demand) (avail : Nat) (i : Nat) :
    (minPass sep ds avail).assigned.getD i 0 ≤ (dAt ds i).min := by
  induction ds generalizing avail i with
  | nil => simp [minPass_nil, List.getD]
  | cons d rest ih =>
    by_cases h : avail - Nat.min avail d.min ≤ lastSep rest sep
    · rw [minPass_cons_early sep avail d rest h]
      cases i with
      | zero => simpa [dAt_cons_zero] using Nat.min_le_right _ _
      | succ j => simp [dAt_cons_succ, getD_replicate_zero]
    · rw [minPass_cons_step sep avail d rest h]
      cases i with
      | zero => simpa [dAt_cons_zero] using Nat.min_le_right _ _
      | succ j => simpa [dAt_cons_succ] using ih _ _

theorem minPass_covers (sep : Nat) (ds : List Demand) (avail : Nat) (i : Nat)
    (h : ((ds.take (i + 1)).map Demand.min).sum + i * sep ≤ avail) :
    (minPass sep ds avail).assigned.getD i 0 = (dAt ds i).min := by
  induction ds generalizing avail i with
  | nil => simp [minPass_nil, List.getD, dAt, List.getD]
  | cons d rest ih =>
    have hdmin : d.min ≤ avail := by
      simp only [List.take_succ_cons, List.map_cons, List.sum_cons] at h
      omega
    have hmin_eq : Nat.min avail d.min = d.min := Nat.min_eq_right hdmin
    by_cases hbr : avail - Nat.min avail d.min ≤ lastSep rest sep
    · rw [minPass_cons_early sep avail d rest hbr]
      cases i with
      | zero => simp [dAt_cons_zero, hmin_eq]
      | succ j =>
        -- early exit: the hypothesis forces the later minima and separators
        -- to fit in zero space, so the covered minimum is itself zero
        simp only [List.take_succ_cons, List.map_cons, List.sum_cons] at h
        have hzero : (dAt rest j).min = 0 := by
          by_cases hj : j < rest.length
          · have hmem : dAt rest j ∈ rest.take (j + 1) := by
              have hconcat : (rest.take j).concat rest[j] = rest.take (j + 1) :=
                List.take_concat_get rest j hj
              have hdj : dAt rest j = rest[j] := by
                simp [dAt, List.getD_eq_getElem?_getD, List.getElem?_eq_getElem hj]
              have h1 : j < (rest.take (j + 1)).length := by
                simp only [List.length_take]
                omega
              have h2 := List.getElem_mem h1
              rw [List.getElem_take] at h2
              rw [hdj]
              exact h2
            have hle2 : (dAt rest j).min ≤ ((rest.take (j + 1)).map Demand.min).sum :=
              List.single_le_sum (by intro x hx; exact Nat.zero_le x) _
                (List.mem_map_of_mem _ hmem)
            have hlsep : lastSep rest sep = sep := by
              cases rest with
              | nil => simp at hj
              | cons _ _ => rfl
            rw [hlsep] at hbr
            have hmul : sep ≤ (j + 1) * sep := Nat.le_mul_of_pos_left sep (by omega)
            omega
          · simp [dAt, List.getD_eq_getElem?_getD,
              List.getElem?_eq_none (by omega : rest.length ≤ j)]
        simp only [dAt_cons_succ, List.getD_cons_succ]
        simp [getD_replicate_zero, hzero]
    · rw [minPass_cons_step sep avail d rest hbr]
      cases i with
      | zero => simp [dAt_cons_zero, hmin_eq]
      | succ j =>
        simp only [List.take_succ_cons, List.map_cons, List.sum_cons] at h
        cases rest with
        | nil =>
          simp [dAt, List.getD, minPass_nil]
        | cons d2 rest2 =>
          simp only [lastSep_cons] at hbr ⊢
          have harith : (((d2 :: rest2).take (j + 1)).map Demand.min).sum + j * sep
              ≤ avail - Nat.min avail d.min - sep := by
            rw [hmin_eq]
            have hmul : (j + 1) * sep = j * sep + sep := by ring
            omega
          simpa [dAt_cons_succ, List.getD_cons_succ] using ih _ _ harith

theorem minPass_unfinished_strict (sep : Nat) (ds : List Demand) (avail : Nat)
    (hv : allValid ds = true) :
    ∀ idx ∈ (minPass sep ds avail).unfinished, ∀ m,
      (dAt ds idx).max = some m →
      (minPass sep ds avail).assigned.getD idx 0 < m := by
  intro idx hmem m hmax
  obtain ⟨hlt, hflag⟩ := minPass_unfinished_mem sep ds avail idx hmem
  have hvd : (dAt ds idx).valid = true := by
    simp only [allValid, List.all_eq_true] at hv
    exact hv _ (dAt_mem hlt)
  have hminlt : (dAt ds idx).min < m := by
    simp only [isUnfinishedFlag, hmax, decide_eq_true_eq] at hflag
    simp only [Demand.valid, hmax, decide_eq_true_eq] at hvd
    omega
  exact Nat.lt_of_le_of_lt (minPass_le_min sep ds avail idx) hminlt

theorem minPass_completed_min (sep : Nat) (ds : List Demand) (avail : Nat)
    (hc : (minPass sep ds avail).completed = true) (i : Nat) :
    (minPass sep ds avail).assigned.getD i 0 = (dAt ds i).min := by
  induction ds generalizing avail i with
  | nil => simp [minPass_nil, List.getD, dAt, List.getD]
  | cons d rest ih =>
    by_cases hbr : avail - Nat.min avail d.min ≤ lastSep rest sep
    · rw [minPass_cons_early sep avail d rest hbr] at hc
      simp at hc
    · rw [minPass_cons_step sep avail d rest hbr] at hc ⊢
      have hdmin : d.min ≤ avail := by
        by_contra hlt
        push_neg at hlt
        have heq : Nat.min avail d.min = avail := Nat.min_eq_left (by omega)
        rw [heq] at hbr
        omega
      simp only at hc
      cases i with
      | zero => simp [dAt_cons_zero, Nat.min_eq_right hdmin]
      | succ j => simpa [dAt_cons_succ] using ih _ hc _

theorem minPass_completed_flagged_mem (sep : Nat) (ds : List Demand) (avail : Nat)
    (hc : (minPass sep ds avail).completed = true) :
    ∀ i < ds.length, isUnfinishedFlag (dAt ds i) = true →
      i ∈ (minPass sep ds avail).unfinished := by
  induction ds generalizing avail with
  | nil => simp
  | cons d rest ih =>
    intro i hi hflag
    by_cases hbr : avail - Nat.min avail d.min ≤ lastSep rest sep
    · rw [minPass_cons_early sep avail d rest hbr] at hc
      simp at hc
    · rw [minPass_cons_step sep avail d rest hbr] at hc ⊢
      simp only at hc ⊢
      simp only [List.mem_append]
      cases i with
      | zero =>
        left
        simp only [dAt_cons_zero] at hflag
        simp [hflag]
      | succ j =>
        right
        simp only [List.length_cons, Nat.succ_lt_succ_iff] at hi
        simp only [dAt_cons_succ] at hflag
        have := ih _ hc j hi hflag
        simp only [List.mem_map]
        exact ⟨j, this, rfl⟩

/-! ### Sorting lemmas -/

theorem insertByKey_perm (key : Nat → Nat) (x : Nat) (l : List Nat) :
    (insertByKey key x l).Perm (x :: l) := by
  induction l with
  | nil => simp [insertByKey]
  | cons y ys ih =>
    simp only [insertByKey]
    split
    · exact List.Perm.refl _
    · exact (List.Perm.cons y ih).trans (List.Perm.swap x y ys)

theorem sortByKey_perm (key : Nat → Nat) (l : List Nat) :
    (sortByKey key l).Perm l := by
  induction l with
  | nil => simp [sortByKey]
  | cons x xs ih =>
    simp only [sortByKey]
    exact (insertByKey_perm key x (sortByKey key xs)).trans (List.Perm.cons x ih)

theorem mem_insertByKey {key : Nat → Nat} {x a : Nat} {l : List Nat} :
    a ∈ insertByKey key x l ↔ a = x ∨ a ∈ l := by
  rw [(insertByKey_perm key x l).mem_iff]
  simp

theorem insertByKey_sorted (key : Nat → Nat) (x : Nat) (l : List Nat)
    (h : l.Pairwise (fun a b => key a ≤ key b)) :
    (insertByKey key x l).Pairwise (fun a b => key a ≤ key b) := by
  induction l with
  | nil => simp [insertByKey]
  | cons y ys ih =>
    simp only [insertByKey]
    rw [List.pairwise_cons] at h
    split
    · rename_i hxy
      refine List.pairwise_cons.2 ⟨?_, List.pairwise_cons.2 h⟩
      intro b hb
      rcases List.mem_cons.1 hb with rfl | hb
      · exact hxy
      · exact le_trans hxy (h.1 b hb)
    · rename_i hxy
      push_neg at hxy
      refine List.pairwise_cons.2 ⟨?_, ih h.2⟩
      intro b hb
      rcases mem_insertByKey.1 hb with rfl | hb
      · exact le_of_lt hxy
      · exact h.1 b hb

theorem sortByKey_sorted (key : Nat → Nat) (l : List Nat) :
    (sortByKey key l).Pairwise (fun a b => key a ≤ key b) := by
  induction l with
  | nil => simp [sortByKey]
  | cons x xs ih => exact insertByKey_sorted key x _ ih

theorem sortByKey_length (key : Nat → Nat) (l : List Nat) :
    (sortByKey key l).length = l.length :=
  (sortByKey_perm key l).length_eq

theorem sortByKey_mem (key : Nat → Nat) (l : List Nat) (a : Nat) :
    a ∈ sortByKey key l ↔ a ∈ l :=
  (sortByKey_perm key l).mem_iff

theorem sortByKey_nodup (key : Nat → Nat) (l : List Nat) (h : l.Nodup) :
    (sortByKey key l).Nodup :=
  ((sortByKey_perm key l).nodup_iff).2 h

/-! ### Ladder lemmas -/

theorem ladder_nil (key : Nat → Nat) (avail i pts pinc ne : Nat) :
    ladder key avail [] i pts pinc ne = ⟨pts, pinc, ne⟩ := rfl

theorem ladder_cons_stop (key : Nat → Nat) (avail : Nat) (idx : Nat) (rest : List Nat)
    (i pts pinc ne : Nat) (h : avail < pts + (key idx - pinc) * i) :
    ladder key avail (idx :: rest) i pts pinc ne = ⟨pts, pinc, ne⟩ := by
  simp only [ladder, if_pos h]

theorem ladder_cons_go (key : Nat → Nat) (avail : Nat) (idx : Nat) (rest : List Nat)
    (i pts pinc ne : Nat) (h : ¬ (avail < pts + (key idx - pinc) * i)) :
    ladder key avail (idx :: rest) i pts pinc ne =
      ladder key avail rest (i + 1) (pts + (key idx - pinc) * i) (key idx) (i + 1) := by
  simp only [ladder, if_neg h]

/-- Master invariant of the ladder loop, for an arbitrary start state whose
cost accumulator satisfies `pts + presum = i * pinc` (with `presum` the key
sum of the already-accepted prefix).  It delivers the number `k` of accepted
steps together with all the facts the equalization proofs need. -/
theorem ladder_spec (key : Nat → Nat) (avail : Nat) :
    ∀ (l : List Nat) (i pts pinc presum : Nat),
    pts ≤ avail →
    (∀ x ∈ l, pinc ≤ key x) →
    l.Pairwise (fun a b => key a ≤ key b) →
    pts + presum = i * pinc →
    ∃ k, k ≤ l.length ∧
      (ladder key avail l i pts pinc i).ne = i + k ∧
      (ladder key avail l i pts pinc i).pts ≤ avail ∧
      (ladder key avail l i pts pinc i).pts + (presum + ((l.take k).map key).sum)
        = (i + k) * (ladder key avail l i pts pinc i).pinc ∧
      pinc ≤ (ladder key avail l i pts pinc i).pinc ∧
      (∀ x ∈ l.take k, key x ≤ (ladder key avail l i pts pinc i).pinc) ∧
      (∀ x ∈ l.drop k, (ladder key avail l i pts pinc i).pinc ≤ key x) ∧
      (k < l.length → avail < (ladder key avail l i pts pinc i).pts
        + (key (l.getD k 0) - (ladder key avail l i pts pinc i).pinc) * (i + k)) ∧
      (k = 0 → (ladder key avail l i pts pinc i).pts = pts
        ∧ (ladder key avail l i pts pinc i).pinc = pinc) := by
  intro l
  induction l with
  | nil =>
    intro i pts pinc presum hpts hlow hsorted hinv
    refine ⟨0, ?_⟩
    rw [ladder_nil]
    exact ⟨Nat.le_refl _, by simp, hpts, by simpa using hinv, le_refl _,
      by simp, by simp, by simp, fun _ => ⟨rfl, rfl⟩⟩
  | cons idx restL ih =>
    intro i pts pinc presum hpts hlow hsorted hinv
    by_cases hstop : avail < pts + (key idx - pinc) * i
    · refine ⟨0, ?_⟩
      rw [ladder_cons_stop key avail idx restL i pts pinc i hstop]
      refine ⟨Nat.zero_le _, by simp, hpts, by simpa using hinv, le_refl _,
        by simp, by simpa using hlow, ?_, fun _ => ⟨rfl, rfl⟩⟩
      intro _
      simpa [List.getD_cons_zero] using hstop
    · rw [ladder_cons_go key avail idx restL i pts pinc i hstop]
      push_neg at hstop
      have hc : pinc ≤ key idx := hlow idx (List.mem_cons_self idx restL)
      rw [List.pairwise_cons] at hsorted
      have hinv2 : (pts + (key idx - pinc) * i) + (presum + key idx)
          = (i + 1) * key idx := by
        have hmul : pinc * i ≤ key idx * i := Nat.mul_le_mul_right i hc
        have hexp : (key idx - pinc) * i = key idx * i - pinc * i := Nat.sub_mul _ _ _
        have hmc1 : i * pinc = pinc * i := Nat.mul_comm _ _
        have hmc2 : (i + 1) * key idx = key idx * i + key idx := by ring
        omega
      obtain ⟨k, hk, hne, hple, hsum, hpincle, htake, hdrop, hbreak, hzero⟩ :=
        ih (i + 1) (pts + (key idx - pinc) * i) (key idx) (presum + key idx)
          hstop hsorted.1 hsorted.2 hinv2
      refine ⟨k + 1, by simpa using Nat.succ_le_succ hk, ?_, hple, ?_, ?_, ?_, ?_, ?_, ?_⟩
      · omega
      · simp only [List.take_succ_cons, List.map_cons, List.sum_cons]
        have harr : i + (k + 1) = i + 1 + k := by omega
        rw [harr]
        omega
      · exact le_trans hc hpincle
      · intro x hx
        rcases List.mem_cons.1 (by simpa using hx) with rfl | hx2
        · exact hpincle
        · exact htake x hx2
      · intro x hx
        exact hdrop x (by simpa using hx)
      · intro hklen
        have hklen2 : k < restL.length := by simpa using hklen
        have hb2 := hbreak hklen2
        have harr : i + (k + 1) = i + 1 + k := by omega
        rw [harr]
        simpa [List.getD_cons_succ] using hb2
      · intro hcontra
        exact absurd hcontra (Nat.succ_ne_zero k)

/-! ### Distribution lemmas -/

theorem distribute_nil (ds : List Demand) (planned : Nat) (assigned : List Nat)
    (avail : Nat) :
    distribute ds planned [] assigned avail = (assigned, avail, []) := rfl

theorem distribute_cons (ds : List Demand) (planned : Nat) (idx : Nat)
    (rest : List Nat) (assigned : List Nat) (avail : Nat) :
    distribute ds planned (idx :: rest) assigned avail =
      ((distribute ds planned rest
          (assigned.set idx (assigned.getD idx 0
            + (increaseFor (dAt ds idx).max planned (assigned.getD idx 0)).1))
          (avail - (increaseFor (dAt ds idx).max planned (assigned.getD idx 0)).1)).1,
       (distribute ds planned rest
          (assigned.set idx (assigned.getD idx 0
            + (increaseFor (dAt ds idx).max planned (assigned.getD idx 0)).1))
          (avail - (increaseFor (dAt ds idx).max planned (assigned.getD idx 0)).1)).2.1,
       if (increaseFor (dAt ds idx).max planned (assigned.getD idx 0)).2 then
         idx :: (distribute ds planned rest
          (assigned.set idx (assigned.getD idx 0
            + (increaseFor (dAt ds idx).max planned (assigned.getD idx 0)).1))
          (avail - (increaseFor (dAt ds idx).max planned (assigned.getD idx 0)).1)).2.2
       else
         (distribute ds planned rest
          (assigned.set idx (assigned.getD idx 0
            + (increaseFor (dAt ds idx).max planned (assigned.getD idx 0)).1))
          (avail - (increaseFor (dAt ds idx).max planned (assigned.getD idx 0)).1)).2.2) := by
  simp only [distribute]

/-- Combined behaviour of the distribution loop: lengths, the untouched and
touched entries, the exact space spent, the new sum, and the surviving
unfinished indices, all in terms of the entry state. -/
theorem distribute_spec (ds : List Demand) (planned : Nat) :
    ∀ (us : List Nat) (assigned : List Nat) (avail : Nat),
    us.Nodup →
    (∀ idx ∈ us, idx < assigned.length) →
    (distribute ds planned us assigned avail).1.length = assigned.length ∧
    (∀ j, j ∉ us →
      (distribute ds planned us assigned avail).1.getD j 0 = assigned.getD j 0) ∧
    (∀ idx ∈ us, (distribute ds planned us assigned avail).1.getD idx 0
        = assigned.getD idx 0
          + (increaseFor (dAt ds idx).max planned (assigned.getD idx 0)).1) ∧
    (distribute ds planned us assigned avail).2.1
        = avail - (us.map fun idx =>
            (increaseFor (dAt ds idx).max planned (assigned.getD idx 0)).1).sum ∧
    (distribute ds planned us assigned avail).1.sum
        = assigned.sum + (us.map fun idx =>
            (increaseFor (dAt ds idx).max planned (assigned.getD idx 0)).1).sum ∧
    (distribute ds planned us assigned avail).2.2
        = us.filter fun idx =>
            (increaseFor (dAt ds idx).max planned (assigned.getD idx 0)).2 := by
  intro us
  induction us with
  | nil =>
    intro assigned avail _ _
    rw [distribute_nil]
    exact ⟨rfl, fun j _ => rfl, by simp, by simp, by simp, by simp⟩
  | cons idx rest ih =>
    intro assigned avail hnd hbnd
    rw [List.nodup_cons] at hnd
    have hidx : idx < assigned.length := hbnd idx (List.mem_cons_self idx rest)
    have hbnd2 : ∀ j ∈ rest, j < (assigned.set idx (assigned.getD idx 0
        + (increaseFor (dAt ds idx).max planned (assigned.getD idx 0)).1)).length := by
      intro j hj
      rw [List.length_set]
      exact hbnd j (List.mem_cons_of_mem idx hj)
    obtain ⟨ihlen, ihfr, ihmem, ihav, ihsum, ihstill⟩ :=
      ih (assigned.set idx (assigned.getD idx 0
          + (increaseFor (dAt ds idx).max planned (assigned.getD idx 0)).1))
        (avail - (increaseFor (dAt ds idx).max planned (assigned.getD idx 0)).1)
        hnd.2 hbnd2
    have hgd : ∀ j ∈ rest, (assigned.set idx (assigned.getD idx 0
        + (increaseFor (dAt ds idx).max planned (assigned.getD idx 0)).1)).getD j 0
        = assigned.getD j 0 := by
      intro j hj
      refine getD_set_ne (fun heq => hnd.1 ?_) _ _
      rw [heq]
      exact hj
    have hmapcg : (rest.map fun j => (increaseFor (dAt ds j).max planned
          ((assigned.set idx (assigned.getD idx 0
            + (increaseFor (dAt ds idx).max planned (assigned.getD idx 0)).1)).getD j 0)).1)
        = rest.map fun j =>
            (increaseFor (dAt ds j).max planned (assigned.getD j 0)).1 := by
      refine List.map_congr_left ?_
      intro j hj
      rw [hgd j hj]
    have hfilcg : (rest.filter fun j => (increaseFor (dAt ds j).max planned
          ((assigned.set idx (assigned.getD idx 0
            + (increaseFor (dAt ds idx).max planned (assigned.getD idx 0)).1)).getD j 0)).2)
        = rest.filter fun j =>
            (increaseFor (dAt ds j).max planned (assigned.getD j 0)).2 := by
      refine List.filter_congr ?_
      intro j hj
      rw [hgd j hj]
    have hsumset : (assigned.set idx (assigned.getD idx 0
        + (increaseFor (dAt ds idx).max planned (assigned.getD idx 0)).1)).sum
        = assigned.sum + (increaseFor (dAt ds idx).max planned (assigned.getD idx 0)).1 := by
      have := sum_set_getD hidx (assigned.getD idx 0
        + (increaseFor (dAt ds idx).max planned (assigned.getD idx 0)).1)
      omega
    rw [distribute_cons]
    refine ⟨?_, ?_, ?_, ?_, ?_, ?_⟩
    · simpa [List.length_set] using ihlen
    · intro j hj
      have hjidx : j ≠ idx := fun heq => hj (heq ▸ List.mem_cons_self idx rest)
      have hjrest : j ∉ rest := fun hmem => hj (List.mem_cons_of_mem idx hmem)
      simp only [ihfr j hjrest]
      exact getD_set_ne (fun heq => hjidx heq.symm) _ _
    · intro j hj
      rcases List.mem_cons.1 hj with rfl | hjrest
      · rw [ihfr j hnd.1]
        exact getD_set_self hidx _ _
      · rw [ihmem j hjrest, hgd j hjrest]
    · simp only [List.map_cons, List.sum_cons]
      rw [ihav, hmapcg, Nat.sub_sub]
    · simp only [List.map_cons, List.sum_cons]
      rw [ihsum, hmapcg, hsumset]
      omega
    · rw [List.filter_cons, ihstill, hfilcg]

/-! ### Arithmetic helper lemmas for the equalization analysis -/

theorem map_sum_le_length_mul (key : Nat → Nat) (c : Nat) :
    ∀ l : List Nat, (∀ x ∈ l, key x ≤ c) → (l.map key).sum ≤ l.length * c := by
  intro l
  induction l with
  | nil => simp
  | cons x xs ih =>
    intro h
    simp only [List.map_cons, List.sum_cons, List.length_cons]
    have h1 := h x (List.mem_cons_self x xs)
    have h2 := ih fun y hy => h y (List.mem_cons_of_mem x hy)
    have hmul : (xs.length + 1) * c = xs.length * c + c := by ring
    omega

theorem length_mul_le_map_sum (key : Nat → Nat) (c : Nat) :
    ∀ l : List Nat, (∀ x ∈ l, c ≤ key x) → l.length * c ≤ (l.map key).sum := by
  intro l
  induction l with
  | nil => simp
  | cons x xs ih =>
    intro h
    simp only [List.map_cons, List.sum_cons, List.length_cons]
    have h1 := h x (List.mem_cons_self x xs)
    have h2 := ih fun y hy => h y (List.mem_cons_of_mem x hy)
    have hmul : (xs.length + 1) * c = xs.length * c + c := by ring
    omega

theorem map_sum_eq_all_eq (key : Nat → Nat) (c : Nat) :
    ∀ l : List Nat, (∀ x ∈ l, key x ≤ c) → (l.map key).sum = l.length * c →
      ∀ x ∈ l, key x = c := by
  intro l
  induction l with
  | nil => simp
  | cons x xs ih =>
    intro h hsum y hy
    simp only [List.map_cons, List.sum_cons, List.length_cons] at hsum
    have h1 := h x (List.mem_cons_self x xs)
    have h2 := map_sum_le_length_mul key c xs fun z hz => h z (List.mem_cons_of_mem x hz)
    have hmul : (xs.length + 1) * c = xs.length * c + c := by ring
    have hx : key x = c := by omega
    have hxs : (xs.map key).sum = xs.length * c := by omega
    rcases List.mem_cons.1 hy with rfl | hy2
    · exact hx
    · exact ih (fun z hz => h z (List.mem_cons_of_mem x hz)) hxs y hy2

theorem sum_sub_add_sum (key : Nat → Nat) (c : Nat) :
    ∀ l : List Nat, (∀ x ∈ l, key x ≤ c) →
      (l.map fun x => c - key x).sum + (l.map key).sum = l.length * c := by
  intro l
  induction l with
  | nil => simp
  | cons x xs ih =>
    intro h
    simp only [List.map_cons, List.sum_cons, List.length_cons]
    have h1 := h x (List.mem_cons_self x xs)
    have h2 := ih fun y hy => h y (List.mem_cons_of_mem x hy)
    have hmul : (xs.length + 1) * c = xs.length * c + c := by ring
    omega

/-! ### Facts about `increaseFor` -/

theorem increaseFor_fst_le (dm : Option Nat) (planned a : Nat) :
    (increaseFor dm planned a).1 ≤ planned - a := by
  cases dm with
  | none => simp [increaseFor]
  | some m =>
    simp only [increaseFor]
    split
    · exact Nat.le_refl _
    · rename_i hm
      push_neg at hm
      omega

theorem increaseFor_keep (dm : Option Nat) (planned a : Nat)
    (hk : (increaseFor dm planned a).2 = true) :
    (increaseFor dm planned a).1 = planned - a ∧
      (∀ m, dm = some m → planned < m) := by
  cases dm with
  | none => simp [increaseFor]
  | some m =>
    simp only [increaseFor] at hk ⊢
    split at hk
    · rename_i hm
      rw [if_pos hm]
      exact ⟨rfl, fun m2 hm2 => by injection hm2 with h2; omega⟩
    · simp at hk

theorem increaseFor_drop (dm : Option Nat) (planned a : Nat)
    (hk : (increaseFor dm planned a).2 = false) :
    ∃ m, dm = some m ∧ m ≤ planned ∧ (increaseFor dm planned a).1 = m - a := by
  cases dm with
  | none => simp [increaseFor] at hk
  | some m =>
    simp only [increaseFor] at hk ⊢
    split at hk
    · simp at hk
    · rename_i hm
      push_neg at hm
      refine ⟨m, rfl, hm, ?_⟩
      rw [if_neg (by omega)]

/-! ### Per-iteration facts of the equalization loop -/

/-- All the quantitative facts one iteration of the equalization loop needs:
the ladder accepts at least one element, the planned level is at least the
minimum assigned space and costs at most the available space, the total
increase of the distribution step fits into the available space, and when the
loop is about to break the remaining space is below the number of equalized
elements, all of which sit at the minimum level. -/
theorem equalize_step_facts (ds : List Demand) (assigned : List Nat) (avail : Nat)
    (idx0 : Nat) (rest0 : List Nat) (lr : LadderResult) (planned : Nat)
    (hsorted : (idx0 :: rest0).Pairwise
      (fun a b => assigned.getD a 0 ≤ assigned.getD b 0))
    (hlr : ladder (fun i => assigned.getD i 0) avail (idx0 :: rest0) 0 0 0 0 = lr)
    (hplanned : planned = lr.pinc + (avail - lr.pts) / lr.ne) :
    0 < lr.ne ∧
    lr.ne ≤ (idx0 :: rest0).length ∧
    assigned.getD idx0 0 ≤ planned ∧
    planned ≤ assigned.getD idx0 0 + avail ∧
    (((idx0 :: rest0).map fun idx =>
        (increaseFor (dAt ds idx).max planned (assigned.getD idx 0)).1).sum ≤ avail) ∧
    (assigned.getD idx0 0 = planned →
      avail < lr.ne ∧
      ∀ x ∈ (idx0 :: rest0).take lr.ne, assigned.getD x 0 = assigned.getD idx0 0) := by
  obtain ⟨k, hk, hne, hpts, hsum, hpinc0, htake, hdrop, hbreak, hzero⟩ :=
    ladder_spec (fun i => assigned.getD i 0) avail (idx0 :: rest0) 0 0 0 0
      (Nat.zero_le _) (fun x _ => Nat.zero_le _) hsorted (by simp)
  rw [hlr] at hne hpts hsum htake hdrop hbreak hzero
  simp only [Nat.zero_add] at hne hsum hbreak
  -- the first step is always accepted
  cases k with
  | zero =>
    exfalso
    obtain ⟨hz1, _⟩ := hzero rfl
    have hb := hbreak (by simp)
    rw [hz1] at hb
    simpa using hb
  | succ kp =>
  have hne2 : lr.ne = kp + 1 := hne
  have hnepos : 0 < lr.ne := by omega
  have hall : ∀ x ∈ idx0 :: rest0, assigned.getD idx0 0 ≤ assigned.getD x 0 := by
    intro x hx
    rcases List.mem_cons.1 hx with rfl | hx2
    · exact Nat.le_refl _
    · exact (List.pairwise_cons.1 hsorted).1 x hx2
  have hmem0 : idx0 ∈ (idx0 :: rest0).take (kp + 1) := by
    rw [List.take_succ_cons]
    exact List.mem_cons_self _ _
  have hminpinc : assigned.getD idx0 0 ≤ lr.pinc := htake idx0 hmem0
  -- pinc is at most minSpace + pts
  have hlentake : ((idx0 :: rest0).take (kp + 1)).length = kp + 1 := by
    rw [List.length_take]
    exact Nat.min_eq_left hk
  have hpinc_ub : lr.pinc ≤ assigned.getD idx0 0 + lr.pts := by
    have hsum2 := hsum
    rw [List.take_succ_cons] at hsum2
    simp only [List.map_cons, List.sum_cons] at hsum2
    have htail : ((rest0.take kp).map fun i => assigned.getD i 0).sum
        ≤ (rest0.take kp).length * lr.pinc := by
      refine map_sum_le_length_mul _ _ _ ?_
      intro y hy
      refine htake y ?_
      rw [List.take_succ_cons]
      exact List.mem_cons_of_mem _ hy
    have hlen2 : (rest0.take kp).length ≤ kp := by
      rw [List.length_take]
      exact Nat.min_le_left _ _
    have hmul1 : (rest0.take kp).length * lr.pinc ≤ kp * lr.pinc :=
      Nat.mul_le_mul_right _ hlen2
    have hmul2 : (kp + 1) * lr.pinc = kp * lr.pinc + lr.pinc := by ring
    omega
  obtain ⟨per, hperdef⟩ : ∃ p : Nat, (avail - lr.pts) / lr.ne = p := ⟨_, rfl⟩
  have hplanned2 : planned = lr.pinc + per := by rw [hplanned, hperdef]
  have hper_le : per ≤ avail - lr.pts := by
    rw [← hperdef]
    exact Nat.div_le_self _ _
  have hmin_planned : assigned.getD idx0 0 ≤ planned := by
    rw [hplanned2]
    omega
  have hplanned_ub : planned ≤ assigned.getD idx0 0 + avail := by
    rw [hplanned2]
    omega
  refine ⟨hnepos, by omega, hmin_planned, hplanned_ub, ?_, ?_⟩
  · -- the total planned spend fits into the available space
    have hstep1 : (((idx0 :: rest0).map fun idx =>
        (increaseFor (dAt ds idx).max planned (assigned.getD idx 0)).1).sum
        ≤ ((idx0 :: rest0).map fun idx => planned - assigned.getD idx 0).sum) := by
      refine List.sum_le_sum ?_
      intro i _
      exact increaseFor_fst_le _ _ _
    refine le_trans hstep1 ?_
    have hsplit : (idx0 :: rest0) =
        ((idx0 :: rest0).take (kp + 1)) ++ ((idx0 :: rest0).drop (kp + 1)) :=
      (List.take_append_drop _ _).symm
    rw [hsplit, List.map_append, List.sum_append]
    have htakepart : (((idx0 :: rest0).take (kp + 1)).map
        fun idx => planned - assigned.getD idx 0).sum ≤ avail := by
      have hid : (((idx0 :: rest0).take (kp + 1)).map
            fun idx => planned - assigned.getD idx 0).sum
          + (((idx0 :: rest0).take (kp + 1)).map fun i => assigned.getD i 0).sum
          = ((idx0 :: rest0).take (kp + 1)).length * planned :=
        sum_sub_add_sum (fun i => assigned.getD i 0) planned
          ((idx0 :: rest0).take (kp + 1))
          (fun y hy => le_trans (htake y hy) (by rw [hplanned2]; omega))
      rw [hlentake] at hid
      -- the key sum of the accepted prefix
      have hkeysum : lr.pts + ((((idx0 :: rest0).take (kp + 1)).map
          fun i => assigned.getD i 0).sum) = (kp + 1) * lr.pinc := hsum
      have hmulpl : (kp + 1) * planned = (kp + 1) * lr.pinc + (kp + 1) * per := by
        rw [hplanned2]
        ring
      have hdivk : (kp + 1) * per ≤ avail - lr.pts := by
        rw [← hperdef, hne2, Nat.mul_comm]
        exact Nat.div_mul_le_self _ _
      omega
    have hdroppart : (((idx0 :: rest0).drop (kp + 1)).map
        fun idx => planned - assigned.getD idx 0).sum = 0 := by
      refine List.sum_eq_zero ?_
      intro v hv
      simp only [List.mem_map] at hv
      obtain ⟨x, hx, rfl⟩ := hv
      by_cases hklen : kp + 1 < (idx0 :: rest0).length
      · -- the break condition pushes the planned level strictly below the
        -- next element of the ladder
        have hb := hbreak hklen
        have hd := List.drop_eq_getElem_cons hklen
        have hgetd : (idx0 :: rest0).getD (kp + 1) 0 = (idx0 :: rest0)[kp + 1] := by
          simp [List.getD_eq_getElem?_getD, List.getElem?_eq_getElem hklen]
        have hheadmem : (idx0 :: rest0)[kp + 1] ∈ (idx0 :: rest0).drop (kp + 1) := by
          rw [hd]
          exact List.mem_cons_self _ _
        have hpinc_head : lr.pinc ≤ assigned.getD ((idx0 :: rest0)[kp + 1]) 0 := by
          have := hdrop _ hheadmem
          exact this
        have hsorted_drop : ((idx0 :: rest0).drop (kp + 1)).Pairwise
            (fun a b => assigned.getD a 0 ≤ assigned.getD b 0) :=
          List.Pairwise.sublist (List.drop_sublist _ _) hsorted
        have hxge : assigned.getD ((idx0 :: rest0)[kp + 1]) 0 ≤ assigned.getD x 0 := by
          rw [hd] at hx hsorted_drop
          rcases List.mem_cons.1 hx with rfl | hx2
          · exact Nat.le_refl _
          · exact (List.pairwise_cons.1 hsorted_drop).1 x hx2
        have hperlt : per
            < assigned.getD ((idx0 :: rest0)[kp + 1]) 0 - lr.pinc := by
          rw [← hperdef, hne2]
          rw [hgetd] at hb
          refine (Nat.div_lt_iff_lt_mul (by omega)).2 ?_
          omega
        rw [hplanned2]
        omega
      · exfalso
        have : (idx0 :: rest0).drop (kp + 1) = [] := by
          refine List.drop_eq_nil_of_le ?_
          omega
        rw [this] at hx
        simp at hx
    omega
  · -- break case: the loop is about to stop
    intro heq
    have hpinc_eq : lr.pinc = assigned.getD idx0 0 := by
      rw [hplanned2] at heq
      omega
    have hper0 : per = 0 := by
      rw [hplanned2] at heq
      omega
    have hpts0 : lr.pts = 0 := by
      have hge : (kp + 1) * assigned.getD idx0 0 ≤ (((idx0 :: rest0).take (kp + 1)).map
          fun i => assigned.getD i 0).sum := by
        have := length_mul_le_map_sum (fun i => assigned.getD i 0)
          (assigned.getD idx0 0) ((idx0 :: rest0).take (kp + 1))
          (fun y hy => hall y (List.take_subset _ _ hy))
        rw [hlentake] at this
        exact this
      rw [hpinc_eq] at hsum
      omega
    have havail : avail < lr.ne := by
      by_contra hcon
      push_neg at hcon
      have hone : 1 ≤ per := by
        rw [← hperdef]
        refine (Nat.one_le_div_iff hnepos).2 ?_
        omega
      omega
    refine ⟨havail, ?_⟩
    intro x hx
    have h1 : assigned.getD x 0 ≤ lr.pinc := htake x (by rw [hne2] at hx; exact hx)
    have h2 : assigned.getD idx0 0 ≤ assigned.getD x 0 :=
      hall x (List.take_subset _ _ hx)
    omega

/-! ### Equalization-loop equations -/

theorem equalize_zero (ds : List Demand) (assigned : List Nat) (avail : Nat)
    (unf : List Nat) :
    equalize ds 0 assigned avail unf = ⟨assigned, avail, unf, false⟩ := rfl

theorem equalize_succ_empty (ds : List Demand) (fuel : Nat) (assigned : List Nat)
    (avail : Nat) (unf : List Nat)
    (h : sortByKey (fun i => assigned.getD i 0) unf = []) :
    equalize ds (fuel + 1) assigned avail unf = ⟨assigned, avail, [], false⟩ := by
  simp only [equalize, h]

theorem equalize_succ_break (ds : List Demand) (fuel : Nat) (assigned : List Nat)
    (avail : Nat) (unf : List Nat) (idx0 : Nat) (rest0 : List Nat)
    (lr : LadderResult) (planned : Nat)
    (h : sortByKey (fun i => assigned.getD i 0) unf = idx0 :: rest0)
    (hlr : ladder (fun i => assigned.getD i 0) avail (idx0 :: rest0) 0 0 0 0 = lr)
    (hpl : planned = lr.pinc + (avail - lr.pts) / lr.ne)
    (hbr : assigned.getD idx0 0 = planned) :
    equalize ds (fuel + 1) assigned avail unf = ⟨assigned, avail, idx0 :: rest0, true⟩ := by
  subst hpl
  subst hlr
  simp only [equalize, h, if_pos hbr]

theorem equalize_succ_go (ds : List Demand) (fuel : Nat) (assigned : List Nat)
    (avail : Nat) (unf : List Nat) (idx0 : Nat) (rest0 : List Nat)
    (lr : LadderResult) (planned : Nat)
    (h : sortByKey (fun i => assigned.getD i 0) unf = idx0 :: rest0)
    (hlr : ladder (fun i => assigned.getD i 0) avail (idx0 :: rest0) 0 0 0 0 = lr)
    (hpl : planned = lr.pinc + (avail - lr.pts) / lr.ne)
    (hbr : ¬ (assigned.getD idx0 0 = planned)) :
    equalize ds (fuel + 1) assigned avail unf =
      equalize ds fuel
        (distribute ds planned (idx0 :: rest0) assigned avail).1
        (distribute ds planned (idx0 :: rest0) assigned avail).2.1
        (distribute ds planned (idx0 :: rest0) assigned avail).2.2 := by
  subst hpl
  subst hlr
  simp only [equalize, h, if_neg hbr]

/-- Core specification of the equalization loop (with sufficient fuel):
lengths are preserved, space is conserved, assignments never decrease,
untouched indices keep their value, the surviving unfinished indices form a
subset without duplicates, an index dropped from the unfinished set has
reached its maximum, upper bounds (loose for everybody, strict for the
unfinished) are preserved, and at a `break` exit the leftover space is
strictly below the number of surviving unfinished elements, while a
non-`break` exit leaves no unfinished element. -/
theorem equalize_core (ds : List Demand) :
    ∀ (fuel : Nat) (assigned : List Nat) (avail : Nat) (unf : List Nat),
    avail + unf.length < fuel →
    unf.Nodup →
    (∀ idx ∈ unf, idx < assigned.length) →
    (equalize ds fuel assigned avail unf).assigned.length = assigned.length ∧
    (equalize ds fuel assigned avail unf).assigned.sum
      + (equalize ds fuel assigned avail unf).avail = assigned.sum + avail ∧
    (∀ j, assigned.getD j 0 ≤ (equalize ds fuel assigned avail unf).assigned.getD j 0) ∧
    (∀ j, j ∉ unf →
      (equalize ds fuel assigned avail unf).assigned.getD j 0 = assigned.getD j 0) ∧
    (equalize ds fuel assigned avail unf).unfinished.Nodup ∧
    (∀ idx ∈ (equalize ds fuel assigned avail unf).unfinished, idx ∈ unf) ∧
    (∀ idx ∈ unf, idx ∉ (equalize ds fuel assigned avail unf).unfinished →
      ∃ m, (dAt ds idx).max = some m ∧
        m ≤ (equalize ds fuel assigned avail unf).assigned.getD idx 0) ∧
    ((∀ i, ∀ m, (dAt ds i).max = some m → assigned.getD i 0 ≤ m) →
      ∀ i, ∀ m, (dAt ds i).max = some m →
        (equalize ds fuel assigned avail unf).assigned.getD i 0 ≤ m) ∧
    ((∀ idx ∈ unf, ∀ m, (dAt ds idx).max = some m → assigned.getD idx 0 < m) →
      ∀ idx ∈ (equalize ds fuel assigned avail unf).unfinished, ∀ m,
        (dAt ds idx).max = some m →
        (equalize ds fuel assigned avail unf).assigned.getD idx 0 < m) ∧
    ((equalize ds fuel assigned avail unf).broke = true →
      (equalize ds fuel assigned avail unf).avail
        < (equalize ds fuel assigned avail unf).unfinished.length) ∧
    ((equalize ds fuel assigned avail unf).broke = false →
      (equalize ds fuel assigned avail unf).unfinished = []) := by
  intro fuel
  induction fuel with
  | zero =>
    intro assigned avail unf hfuel _ _
    exact absurd hfuel (by omega)
  | succ fuel ih =>
    intro assigned avail unf hfuel hnd hbnd
    cases hs : sortByKey (fun i => assigned.getD i 0) unf with
    | nil =>
      have hperm := sortByKey_perm (fun i => assigned.getD i 0) unf
      rw [hs] at hperm
      have hunf : unf = [] := hperm.symm.eq_nil
      rw [equalize_succ_empty ds fuel assigned avail unf hs]
      subst hunf
      refine ⟨rfl, rfl, fun j => le_refl _, fun j _ => rfl, List.nodup_nil,
        by simp, ?_, fun H => H, ?_, ?_, fun _ => rfl⟩
      · intro idx hin
        simp at hin
      · intro _ idx hin
        simp at hin
      · intro hcontra
        simp at hcontra
    | cons idx0 rest0 =>
      have hperm := sortByKey_perm (fun i => assigned.getD i 0) unf
      rw [hs] at hperm
      have hsorted := sortByKey_sorted (fun i => assigned.getD i 0) unf
      rw [hs] at hsorted
      have hnd_s : (idx0 :: rest0).Nodup := by
        rw [← hs]
        exact sortByKey_nodup _ _ hnd
      have hbnd_s : ∀ idx ∈ idx0 :: rest0, idx < assigned.length :=
        fun idx hid => hbnd idx (hperm.mem_iff.1 hid)
      have hlen_s : (idx0 :: rest0).length = unf.length := hperm.length_eq
      obtain ⟨lr, hlr⟩ : ∃ x, ladder (fun i => assigned.getD i 0) avail
          (idx0 :: rest0) 0 0 0 0 = x := ⟨_, rfl⟩
      obtain ⟨planned, hpl⟩ : ∃ p, p = lr.pinc + (avail - lr.pts) / lr.ne := ⟨_, rfl⟩
      obtain ⟨hnepos, hnele, hminpl, hplub, hspend, hbreakf⟩ :=
        equalize_step_facts ds assigned avail idx0 rest0 lr planned hsorted hlr hpl
      by_cases hbr : assigned.getD idx0 0 = planned
      · rw [equalize_succ_break ds fuel assigned avail unf idx0 rest0 lr planned
          hs hlr hpl hbr]
        refine ⟨rfl, rfl, fun j => le_refl _, fun j _ => rfl, hnd_s,
          fun idx hid => hperm.mem_iff.1 hid, ?_, fun H => H, ?_, ?_, ?_⟩
        · intro idx hin hnotin
          exact (hnotin (hperm.mem_iff.2 hin)).elim
        · intro H idx hid m hm
          exact H idx (hperm.mem_iff.1 hid) m hm
        · intro _
          obtain ⟨hlt, _⟩ := hbreakf hbr
          simp only [List.length_cons]
          simp only [List.length_cons] at hnele
          omega
        · intro hcontra
          simp at hcontra
      · rw [equalize_succ_go ds fuel assigned avail unf idx0 rest0 lr planned
          hs hlr hpl hbr]
        obtain ⟨dlen, dfr, dmem, dav, dsum, dstill⟩ :=
          distribute_spec ds planned (idx0 :: rest0) assigned avail hnd_s hbnd_s
        obtain ⟨D, hD⟩ : ∃ x, distribute ds planned (idx0 :: rest0) assigned avail = x :=
          ⟨_, rfl⟩
        rw [hD] at dlen dfr dmem dav dsum dstill
        rw [hD]
        -- facts about the next state
        have hnd_still : D.2.2.Nodup := by
          rw [dstill]
          exact List.Nodup.filter _ hnd_s
        have hmem_still : ∀ idx ∈ D.2.2, idx ∈ idx0 :: rest0 := by
          intro idx hid
          rw [dstill] at hid
          exact (List.mem_filter.1 hid).1
        have hbnd_still : ∀ idx ∈ D.2.2, idx < D.1.length := by
          intro idx hid
          rw [dlen]
          exact hbnd_s idx (hmem_still idx hid)
        have hlen_still : D.2.2.length ≤ (idx0 :: rest0).length := by
          rw [dstill]
          exact (List.filter_sublist _).length_le
        have hsum_cons : (((idx0 :: rest0)).map fun idx =>
            (increaseFor (dAt ds idx).max planned (assigned.getD idx 0)).1).sum
            = (increaseFor (dAt ds idx0).max planned (assigned.getD idx0 0)).1
              + ((rest0).map fun idx =>
                (increaseFor (dAt ds idx).max planned (assigned.getD idx 0)).1).sum := by
          simp
        have hmeasure : D.2.1 + D.2.2.length < fuel := by
          cases hkeep : (increaseFor (dAt ds idx0).max planned (assigned.getD idx0 0)).2 with
          | true =>
            obtain ⟨hinc0, _⟩ := increaseFor_keep _ _ _ hkeep
            have hlt : assigned.getD idx0 0 < planned :=
              Nat.lt_of_le_of_ne hminpl hbr
            have hinc0ge : 1 ≤ (increaseFor (dAt ds idx0).max planned
                (assigned.getD idx0 0)).1 := by
              rw [hinc0]
              omega
            have hSge : 1 ≤ (((idx0 :: rest0)).map fun idx =>
                (increaseFor (dAt ds idx).max planned (assigned.getD idx 0)).1).sum := by
              rw [hsum_cons]
              omega
            have hav1 : 1 ≤ avail := by omega
            have hD21 : D.2.1 + 1 ≤ avail := by
              rw [dav]
              omega
            have hkbound : D.2.2.length ≤ unf.length := by omega
            omega
          | false =>
            have hcond : ¬ ((increaseFor (dAt ds idx0).max planned
                (assigned.getD idx0 0)).2 = true) := by
              rw [hkeep]
              simp
            have hstillshort : D.2.2.length ≤ rest0.length := by
              rw [dstill, List.filter_cons, if_neg hcond]
              exact (List.filter_sublist _).length_le
            have hdav : D.2.1 ≤ avail := by
              rw [dav]
              omega
            have hlen_s2 : rest0.length + 1 = unf.length := by
              rw [← hlen_s]
              simp
            omega
        obtain ⟨ihlen, ihsum, ihmono, ihfr, ihnd, ihmem, ihrem, ihpres, ihstrict,
            ihbrk, ihnobrk⟩ := ih D.1 D.2.1 D.2.2 hmeasure hnd_still hbnd_still
        have hDmono : ∀ j, assigned.getD j 0 ≤ D.1.getD j 0 := by
          intro j
          by_cases hj : j ∈ idx0 :: rest0
          · rw [dmem j hj]
            exact Nat.le_add_right _ _
          · rw [dfr j hj]
        have hnotin_still : ∀ j, j ∉ unf → j ∉ D.2.2 := by
          intro j hj hcon
          exact hj (hperm.mem_iff.1 (hmem_still j hcon))
        refine ⟨?_, ?_, ?_, ?_, ihnd, ?_, ?_, ?_, ?_, ihbrk, ihnobrk⟩
        · rw [ihlen, dlen]
        · rw [ihsum, dsum, dav]
          omega
        · intro j
          exact le_trans (hDmono j) (ihmono j)
        · intro j hj
          rw [ihfr j (hnotin_still j hj), dfr j (fun hc => hj (hperm.mem_iff.1 hc))]
        · intro idx hid
          exact hperm.mem_iff.1 (hmem_still idx (ihmem idx hid))
        · -- an index dropped from the unfinished set has reached its maximum
          intro idx hin hnot
          have hidx_s : idx ∈ idx0 :: rest0 := hperm.mem_iff.2 hin
          by_cases hstill : idx ∈ D.2.2
          · exact ihrem idx hstill hnot
          · have hkeepf : (increaseFor (dAt ds idx).max planned
                (assigned.getD idx 0)).2 = false := by
              cases hkf : (increaseFor (dAt ds idx).max planned (assigned.getD idx 0)).2 with
              | true =>
                exact absurd (by rw [dstill]; exact List.mem_filter.2 ⟨hidx_s, hkf⟩) hstill
              | false => rfl
            obtain ⟨m, hm, _, hinc⟩ := increaseFor_drop _ _ _ hkeepf
            refine ⟨m, hm, ?_⟩
            have hDv : D.1.getD idx 0 = assigned.getD idx 0
                + (increaseFor (dAt ds idx).max planned (assigned.getD idx 0)).1 :=
              dmem idx hidx_s
            have hmle : m ≤ D.1.getD idx 0 := by
              rw [hDv, hinc]
              omega
            exact le_trans hmle (ihmono idx)
        · -- preservation of the loose maximum bound
          intro H
          refine ihpres ?_
          intro i m hm
          by_cases his : i ∈ idx0 :: rest0
          · rw [dmem i his]
            have ha := H i m hm
            cases hkf : (increaseFor (dAt ds i).max planned (assigned.getD i 0)).2 with
            | true =>
              obtain ⟨hinc, hgt⟩ := increaseFor_keep _ _ _ hkf
              have := hgt m hm
              rw [hinc]
              omega
            | false =>
              obtain ⟨m2, hm2, hm2le, hinc⟩ := increaseFor_drop _ _ _ hkf
              rw [hm] at hm2
              injection hm2 with hm2e
              rw [hinc, ← hm2e]
              omega
          · rw [dfr i his]
            exact H i m hm
        · -- preservation of the strict bound on unfinished indices
          intro H
          refine ihstrict ?_
          intro idx hid m hm
          have hid_s : idx ∈ idx0 :: rest0 := hmem_still idx hid
          have hkf : (increaseFor (dAt ds idx).max planned (assigned.getD idx 0)).2
              = true := by
            rw [dstill] at hid
            exact (List.mem_filter.1 hid).2
          obtain ⟨hinc, hgt⟩ := increaseFor_keep _ _ _ hkf
          have hplm := hgt m hm
          have ha := H idx (hperm.mem_iff.1 hid_s) m hm
          rw [dmem idx hid_s, hinc]
          omega

/-! ### Remainder-pass lemmas -/

theorem remainderPass_nil (assigned : List Nat) (avail : Nat) :
    remainderPass assigned avail [] = (assigned, avail) := rfl

theorem remainderPass_cons_zero (assigned : List Nat) (idx : Nat) (rest : List Nat) :
    remainderPass assigned 0 (idx :: rest) = (assigned, 0) := rfl

theorem remainderPass_cons_succ (assigned : List Nat) (v : Nat) (idx : Nat)
    (rest : List Nat) :
    remainderPass assigned (v + 1) (idx :: rest) =
      remainderPass (assigned.set idx (assigned.getD idx 0 + 1)) v rest := rfl

/-- Combined behaviour of the remainder pass: length preservation, exact
accounting, monotone growth of at most one unit per entry, untouched entries,
exhaustion of the space when enough unfinished elements remain, and
preservation of the maximum bounds when every unfinished element is strictly
below its maximum. -/
theorem remainderPass_spec (ds : List Demand) :
    ∀ (us : List Nat) (assigned : List Nat) (avail : Nat),
    us.Nodup →
    (∀ idx ∈ us, idx < assigned.length) →
    (remainderPass assigned avail us).1.length = assigned.length ∧
    (remainderPass assigned avail us).1.sum + (remainderPass assigned avail us).2
      = assigned.sum + avail ∧
    (∀ j, assigned.getD j 0 ≤ (remainderPass assigned avail us).1.getD j 0) ∧
    (∀ j, j ∉ us → (remainderPass assigned avail us).1.getD j 0 = assigned.getD j 0) ∧
    (∀ j, (remainderPass assigned avail us).1.getD j 0 ≤ assigned.getD j 0 + 1) ∧
    (avail ≤ us.length → (remainderPass assigned avail us).2 = 0) ∧
    ((∀ i, ∀ m, (dAt ds i).max = some m → assigned.getD i 0 ≤ m) →
      (∀ idx ∈ us, ∀ m, (dAt ds idx).max = some m → assigned.getD idx 0 < m) →
      ∀ i, ∀ m, (dAt ds i).max = some m →
        (remainderPass assigned avail us).1.getD i 0 ≤ m) := by
  intro us
  induction us with
  | nil =>
    intro assigned avail _ _
    rw [remainderPass_nil]
    refine ⟨rfl, rfl, fun j => le_refl _, fun j _ => rfl, fun j => Nat.le_succ _,
      ?_, ?_⟩
    · intro h
      simp at h
      omega
    · intro H _ i m hm
      exact H i m hm
  | cons idx rest ih =>
    intro assigned avail hnd hbnd
    rw [List.nodup_cons] at hnd
    have hidx : idx < assigned.length := hbnd idx (List.mem_cons_self idx rest)
    cases avail with
    | zero =>
      rw [remainderPass_cons_zero]
      refine ⟨rfl, rfl, fun j => le_refl _, fun j _ => rfl, fun j => Nat.le_succ _,
        fun _ => rfl, ?_⟩
      intro H _ i m hm
      exact H i m hm
    | succ v =>
      rw [remainderPass_cons_succ]
      have hbnd2 : ∀ j ∈ rest, j < (assigned.set idx (assigned.getD idx 0 + 1)).length := by
        intro j hj
        rw [List.length_set]
        exact hbnd j (List.mem_cons_of_mem idx hj)
      obtain ⟨ihlen, ihsum, ihmono, ihfr, ihub, ihzero, ihpres⟩ :=
        ih (assigned.set idx (assigned.getD idx 0 + 1)) v hnd.2 hbnd2
      have hset_idx : (assigned.set idx (assigned.getD idx 0 + 1)).getD idx 0
          = assigned.getD idx 0 + 1 := getD_set_self hidx _ _
      have hset_ne : ∀ j, j ≠ idx →
          (assigned.set idx (assigned.getD idx 0 + 1)).getD j 0 = assigned.getD j 0 := by
        intro j hj
        exact getD_set_ne (fun heq => hj heq.symm) _ _
      have hsumset : (assigned.set idx (assigned.getD idx 0 + 1)).sum
          = assigned.sum + 1 := by
        have := sum_set_getD hidx (assigned.getD idx 0 + 1)
        omega
      refine ⟨?_, ?_, ?_, ?_, ?_, ?_, ?_⟩
      · rw [ihlen, List.length_set]
      · rw [ihsum, hsumset]
        omega
      · intro j
        by_cases hj : j = idx
        · subst hj
          have := ihmono j
          rw [hset_idx] at this
          omega
        · have := ihmono j
          rw [hset_ne j hj] at this
          exact this
      · intro j hj
        have hjidx : j ≠ idx := fun heq => hj (heq ▸ List.mem_cons_self idx rest)
        have hjrest : j ∉ rest := fun hmem => hj (List.mem_cons_of_mem idx hmem)
        rw [ihfr j hjrest, hset_ne j hjidx]
      · intro j
        by_cases hj : j = idx
        · subst hj
          have := ihfr j hnd.1
          rw [hset_idx] at this
          omega
        · have := ihub j
          rw [hset_ne j hj] at this
          exact this
      · intro h
        refine ihzero ?_
        simp only [List.length_cons] at h
        omega
      · intro H Hs i m hm
        refine ihpres ?_ ?_ i m hm
        · intro i2 m2 hm2
          by_cases hij : i2 = idx
          · subst hij
            rw [hset_idx]
            exact Hs i2 (List.mem_cons_self _ _) m2 hm2
          · rw [hset_ne i2 hij]
            exact H i2 m2 hm2
        · intro j hj m2 hm2
          have hjidx : j ≠ idx := fun heq => hnd.1 (heq ▸ hj)
          rw [hset_ne j hjidx]
          exact Hs j (List.mem_cons_of_mem idx hj) m2 hm2

/-! ### Whole-allocator assembly -/

theorem layoutFull_eq_not_completed (avail sep : Nat) (ds : List Demand)
    (h : (minPass sep ds avail).completed = false) :
    layoutFull avail sep ds = ⟨(minPass sep ds avail).assigned,
      (minPass sep ds avail).sepConsumed, (minPass sep ds avail).avail, false⟩ := by
  simp only [layoutFull, h]
  simp

theorem layoutFull_eq_broke (avail sep : Nat) (ds : List Demand)
    (hc : (minPass sep ds avail).completed = true)
    (hb : (equalize ds
        ((minPass sep ds avail).avail + (minPass sep ds avail).unfinished.length + 1)
        (minPass sep ds avail).assigned (minPass sep ds avail).avail
        (minPass sep ds avail).unfinished).broke = true) :
    layoutFull avail sep ds =
      ⟨(remainderPass
          (equalize ds ((minPass sep ds avail).avail
            + (minPass sep ds avail).unfinished.length + 1)
            (minPass sep ds avail).assigned (minPass sep ds avail).avail
            (minPass sep ds avail).unfinished).assigned
          (equalize ds ((minPass sep ds avail).avail
            + (minPass sep ds avail).unfinished.length + 1)
            (minPass sep ds avail).assigned (minPass sep ds avail).avail
            (minPass sep ds avail).unfinished).avail
          (equalize ds ((minPass sep ds avail).avail
            + (minPass sep ds avail).unfinished.length + 1)
            (minPass sep ds avail).assigned (minPass sep ds avail).avail
            (minPass sep ds avail).unfinished).unfinished).1,
        (minPass sep ds avail).sepConsumed,
        (remainderPass
          (equalize ds ((minPass sep ds avail).avail
            + (minPass sep ds avail).unfinished.length + 1)
            (minPass sep ds avail).assigned (minPass sep ds avail).avail
            (minPass sep ds avail).unfinished).assigned
          (equalize ds ((minPass sep ds avail).avail
            + (minPass sep ds avail).unfinished.length + 1)
            (minPass sep ds avail).assigned (minPass sep ds avail).avail
            (minPass sep ds avail).unfinished).avail
          (equalize ds ((minPass sep ds avail).avail
            + (minPass sep ds avail).unfinished.length + 1)
            (minPass sep ds avail).assigned (minPass sep ds avail).avail
            (minPass sep ds avail).unfinished).unfinished).2,
        true⟩ := by
  simp only [layoutFull, hc, hb]
  simp

theorem layoutFull_eq_nobroke (avail sep : Nat) (ds : List Demand)
    (hc : (minPass sep ds avail).completed = true)
    (hb : (equalize ds
        ((minPass sep ds avail).avail + (minPass sep ds avail).unfinished.length + 1)
        (minPass sep ds avail).assigned (minPass sep ds avail).avail
        (minPass sep ds avail).unfinished).broke = false) :
    layoutFull avail sep ds =
      ⟨(equalize ds ((minPass sep ds avail).avail
          + (minPass sep ds avail).unfinished.length + 1)
          (minPass sep ds avail).assigned (minPass sep ds avail).avail
          (minPass sep ds avail).unfinished).assigned,
        (minPass sep ds avail).sepConsumed,
        (equalize ds ((minPass sep ds avail).avail
          + (minPass sep ds avail).unfinished.length + 1)
          (minPass sep ds avail).assigned (minPass sep ds avail).avail
          (minPass sep ds avail).unfinished).avail,
        true⟩ := by
  simp only [layoutFull, hc, hb]
  simp

/-- Combined behaviour of the whole allocator: the output has one entry per
demand; the output total plus the separator cost of the consumed separators
plus the final leftover is exactly the available space; the output never
drops below the minimum pass; maxima are respected for well-formed demands;
and when the minimum pass ran to completion and some element of the output is
still unfinished, no space is left over. -/
theorem layoutFull_spec (avail sep : Nat) (ds : List Demand) :
    (layout_linearly avail sep ds).length = ds.length ∧
    (layout_linearly avail sep ds).sum + sep * (layoutFull avail sep ds).sepConsumed
      + (layoutFull avail sep ds).leftover = avail ∧
    (∀ j, (minPass sep ds avail).assigned.getD j 0
      ≤ (layout_linearly avail sep ds).getD j 0) ∧
    (allValid ds = true → ∀ i, ∀ m, (dAt ds i).max = some m →
      (layout_linearly avail sep ds).getD i 0 ≤ m) ∧
    ((layoutFull avail sep ds).completedMinPass = true →
      existsSpecUnfinished ds (layout_linearly avail sep ds) = true →
      (layoutFull avail sep ds).leftover = 0) ∧
    (layoutFull avail sep ds).completedMinPass = (minPass sep ds avail).completed := by
  have hmplen := minPass_length sep ds avail
  have hmpacc := minPass_accounting sep ds avail
  have hmpnd : (minPass sep ds avail).unfinished.Nodup :=
    (minPass_unfinished_sorted sep ds avail).imp (fun hab => Nat.ne_of_lt hab)
  have hmpbnd : ∀ idx ∈ (minPass sep ds avail).unfinished,
      idx < (minPass sep ds avail).assigned.length := by
    intro idx hid
    rw [hmplen]
    exact (minPass_unfinished_mem sep ds avail idx hid).1
  have hmpmax : allValid ds = true → ∀ i, ∀ m, (dAt ds i).max = some m →
      (minPass sep ds avail).assigned.getD i 0 ≤ m := by
    intro hv i m hm
    refine le_trans (minPass_le_min sep ds avail i) ?_
    by_cases hin : i < ds.length
    · have hvd : (dAt ds i).valid = true := by
        simp only [allValid, List.all_eq_true] at hv
        exact hv _ (dAt_mem hin)
      simp only [Demand.valid, hm, decide_eq_true_eq] at hvd
      exact hvd
    · have : dAt ds i = ⟨0, none⟩ := by
        simp [dAt, List.getD_eq_getElem?_getD,
          List.getElem?_eq_none (by omega : ds.length ≤ i)]
      rw [this] at hm
      simp at hm
  by_cases hc : (minPass sep ds avail).completed = true
  · obtain ⟨elen, esum, emono, efr, endp, emem, erem, epres, estrict, ebrk, enobrk⟩ :=
      equalize_core ds
        ((minPass sep ds avail).avail + (minPass sep ds avail).unfinished.length + 1)
        (minPass sep ds avail).assigned (minPass sep ds avail).avail
        (minPass sep ds avail).unfinished (by omega) hmpnd hmpbnd
    by_cases hb : (equalize ds
        ((minPass sep ds avail).avail + (minPass sep ds avail).unfinished.length + 1)
        (minPass sep ds avail).assigned (minPass sep ds avail).avail
        (minPass sep ds avail).unfinished).broke = true
    · have hebnd : ∀ idx ∈ (equalize ds
          ((minPass sep ds avail).avail + (minPass sep ds avail).unfinished.length + 1)
          (minPass sep ds avail).assigned (minPass sep ds avail).avail
          (minPass sep ds avail).unfinished).unfinished,
          idx < (equalize ds
          ((minPass sep ds avail).avail + (minPass sep ds avail).unfinished.length + 1)
          (minPass sep ds avail).assigned (minPass sep ds avail).avail
          (minPass sep ds avail).unfinished).assigned.length := by
        intro idx hid
        rw [elen]
        exact hmpbnd idx (emem idx hid)
      obtain ⟨rlen, rsum, rmono, rfr, rub, rzero, rpres⟩ :=
        remainderPass_spec ds _ _ _ endp hebnd
      have hL : layout_linearly avail sep ds = (remainderPass
          (equalize ds ((minPass sep ds avail).avail
            + (minPass sep ds avail).unfinished.length + 1)
            (minPass sep ds avail).assigned (minPass sep ds avail).avail
            (minPass sep ds avail).unfinished).assigned
          (equalize ds ((minPass sep ds avail).avail
            + (minPass sep ds avail).unfinished.length + 1)
            (minPass sep ds avail).assigned (minPass sep ds avail).avail
            (minPass sep ds avail).unfinished).avail
          (equalize ds ((minPass sep ds avail).avail
            + (minPass sep ds avail).unfinished.length + 1)
            (minPass sep ds avail).assigned (minPass sep ds avail).avail
            (minPass sep ds avail).unfinished).unfinished).1 := by
        unfold layout_linearly
        rw [layoutFull_eq_broke avail sep ds hc hb]
      have hLf := layoutFull_eq_broke avail sep ds hc hb
      have hzero : (layoutFull avail sep ds).leftover = 0 := by
        rw [hLf]
        exact rzero (Nat.le_of_lt (ebrk hb))
      refine ⟨?_, ?_, ?_, ?_, ?_, ?_⟩
      · rw [hL, rlen, elen, hmplen]
      · rw [hL]
        have hlf2 : (layoutFull avail sep ds).leftover = (remainderPass
            (equalize ds ((minPass sep ds avail).avail
              + (minPass sep ds avail).unfinished.length + 1)
              (minPass sep ds avail).assigned (minPass sep ds avail).avail
              (minPass sep ds avail).unfinished).assigned
            (equalize ds ((minPass sep ds avail).avail
              + (minPass sep ds avail).unfinished.length + 1)
              (minPass sep ds avail).assigned (minPass sep ds avail).avail
              (minPass sep ds avail).unfinished).avail
            (equalize ds ((minPass sep ds avail).avail
              + (minPass sep ds avail).unfinished.length + 1)
              (minPass sep ds avail).assigned (minPass sep ds avail).avail
              (minPass sep ds avail).unfinished).unfinished).2 := by
          rw [hLf]
        have hcons : (layoutFull avail sep ds).sepConsumed
            = (minPass sep ds avail).sepConsumed := by
          rw [hLf]
        rw [hlf2, hcons]
        omega
      · intro j
        rw [hL]
        exact le_trans (emono j) (rmono j)
      · intro hv i m hm
        rw [hL]
        exact rpres (epres (hmpmax hv)) (estrict (minPass_unfinished_strict sep ds avail hv))
          i m hm
      · intro _ _
        exact hzero
      · rw [hLf, hc]
    · have hb2 : (equalize ds
          ((minPass sep ds avail).avail + (minPass sep ds avail).unfinished.length + 1)
          (minPass sep ds avail).assigned (minPass sep ds avail).avail
          (minPass sep ds avail).unfinished).broke = false := by
        cases hx : (equalize ds
          ((minPass sep ds avail).avail + (minPass sep ds avail).unfinished.length + 1)
          (minPass sep ds avail).assigned (minPass sep ds avail).avail
          (minPass sep ds avail).unfinished).broke
        · rfl
        · exact absurd hx hb
      have hempty := enobrk hb2
      have hLf := layoutFull_eq_nobroke avail sep ds hc hb2
      have hL : layout_linearly avail sep ds = (equalize ds
          ((minPass sep ds avail).avail + (minPass sep ds avail).unfinished.length + 1)
          (minPass sep ds avail).assigned (minPass sep ds avail).avail
          (minPass sep ds avail).unfinished).assigned := by
        unfold layout_linearly
        rw [hLf]
      refine ⟨?_, ?_, ?_, ?_, ?_, ?_⟩
      · rw [hL, elen, hmplen]
      · have hlf2 : (layoutFull avail sep ds).leftover = (equalize ds
            ((minPass sep ds avail).avail + (minPass sep ds avail).unfinished.length + 1)
            (minPass sep ds avail).assigned (minPass sep ds avail).avail
            (minPass sep ds avail).unfinished).avail := by
          rw [hLf]
        have hcons : (layoutFull avail sep ds).sepConsumed
            = (minPass sep ds avail).sepConsumed := by
          rw [hLf]
        rw [hL, hlf2, hcons]
        omega
      · intro j
        rw [hL]
        exact emono j
      · intro hv i m hm
        rw [hL]
        exact epres (hmpmax hv) i m hm
      · -- with no unfinished element surviving, no output entry can still be
        -- unfinished, so the hypothesis is contradictory
        intro _ hex
        exfalso
        simp only [existsSpecUnfinished, List.any_eq_true, List.mem_range] at hex
        obtain ⟨i, hilt, hunfB⟩ := hex
        have hflag : isUnfinishedFlag (dAt ds i) = true := by
          cases hmax : (dAt ds i).max with
          | none => simp [isUnfinishedFlag, hmax]
          | some m =>
            simp only [specUnfinishedB, hmax, decide_eq_true_eq] at hunfB
            simp only [isUnfinishedFlag, hmax, decide_eq_true_eq]
            intro hme
            have h1 := minPass_completed_min sep ds avail hc i
            have h2 := emono i
            rw [hL] at hunfB
            omega
        have hmem0 := minPass_completed_flagged_mem sep ds avail hc i hilt hflag
        have hnotin : i ∉ (equalize ds
            ((minPass sep ds avail).avail + (minPass sep ds avail).unfinished.length + 1)
            (minPass sep ds avail).assigned (minPass sep ds avail).avail
            (minPass sep ds avail).unfinished).unfinished := by
          rw [hempty]
          simp
        obtain ⟨m2, hm2, hm2le⟩ := erem i hmem0 hnotin
        rw [← hL] at hm2le
        cases hmax : (dAt ds i).max with
        | none => rw [hmax] at hm2; simp at hm2
        | some m =>
          simp only [specUnfinishedB, hmax, decide_eq_true_eq] at hunfB
          rw [hmax] at hm2
          injection hm2 with hme
          omega
      · rw [hLf, hc]
  · have hc2 : (minPass sep ds avail).completed = false := by
      cases hx : (minPass sep ds avail).completed
      · rfl
      · exact absurd hx hc
    have hLf := layoutFull_eq_not_completed avail sep ds hc2
    have hL : layout_linearly avail sep ds = (minPass sep ds avail).assigned := by
      unfold layout_linearly
      rw [hLf]
    refine ⟨?_, ?_, ?_, ?_, ?_, ?_⟩
    · rw [hL, hmplen]
    · have hlf2 : (layoutFull avail sep ds).leftover = (minPass sep ds avail).avail := by
        rw [hLf]
      have hcons : (layoutFull avail sep ds).sepConsumed
          = (minPass sep ds avail).sepConsumed := by
        rw [hLf]
      rw [hL, hlf2, hcons]
      exact hmpacc
    · intro j
      rw [hL]
    · intro hv i m hm
      rw [hL]
      exact hmpmax hv i m hm
    · intro hcontra
      rw [hLf] at hcontra
      simp at hcontra
    · rw [hLf, hc2]

/-! ### Claim theorems: conservation, bounds, reference vectors -/

/-- C1 (amended): for every demand list, available extent and separator
extent, the output total of `layout_linearly` plus the separator cost of the
consumed separators never exceeds the available space; and whenever some
element of the output is still unfinished (output strictly below its maximum,
or maximum absent) AND the minimum pass ran to completion (it never stopped
early for lack of separator space), the total plus the consumed separator
cost equals the available space exactly.  (The original claim asserted the
equality without the completed-minimum-pass proviso; the counterexample shows
that the early-exit of the minimum pass can leave space unused.) -/
theorem C1_conservation_amended (avail sep : Nat) (ds : List Demand) :
    (layout_linearly avail sep ds).sum
        + sep * (layoutFull avail sep ds).sepConsumed ≤ avail ∧
    (existsSpecUnfinished ds (layout_linearly avail sep ds) = true →
      (layoutFull avail sep ds).completedMinPass = true →
      (layout_linearly avail sep ds).sum
        + sep * (layoutFull avail sep ds).sepConsumed = avail) := by
  obtain ⟨_, hacc, _, _, hzero, _⟩ := layoutFull_spec avail sep ds
  constructor
  · omega
  · intro hex hcomp
    have := hzero hcomp hex
    omega

/-- C1 counterexample: with two unbounded zero-minimum demands, available
space `1` and separator width `2`, the minimum pass exits early; the output
is `[0, 0]`, an unfinished element remains, yet the output total plus the
consumed separator cost is `0`, not `1`.  This refutes the exactness clause
of the claim as stated. -/
theorem C1_counterexample :
    ¬ (existsSpecUnfinished [Demand.at_least 0, Demand.at_least 0]
        (layout_linearly 1 2 [Demand.at_least 0, Demand.at_least 0]) = true →
      (layout_linearly 1 2 [Demand.at_least 0, Demand.at_least 0]).sum
        + 2 * (layoutFull 1 2 [Demand.at_least 0, Demand.at_least 0]).sepConsumed
        = 1) := by
  decide

theorem C1_witness :
    (layout_linearly 10 1 [Demand.exact 3, Demand.at_least 1]).sum
      + 1 * (layoutFull 10 1 [Demand.exact 3, Demand.at_least 1]).sepConsumed ≤ 10 ∧
    (layout_linearly 10 1 [Demand.exact 3, Demand.at_least 1]).sum
      + 1 * (layoutFull 10 1 [Demand.exact 3, Demand.at_least 1]).sepConsumed = 10 :=
  ⟨(C1_conservation_amended 10 1 [Demand.exact 3, Demand.at_least 1]).1,
   (C1_conservation_amended 10 1 [Demand.exact 3, Demand.at_least 1]).2
     (by decide) (by decide)⟩

/-- C2: for every demand list in which every demand with a maximum satisfies
`min ≤ max`, every available extent and separator extent, and every index
whose demand carries a maximum, the corresponding output entry of
`layout_linearly` never exceeds that maximum. -/
theorem C2_respect_maxima (avail sep : Nat) (ds : List Demand)
    (hv : allValid ds = true) (i m : Nat) (hm : (dAt ds i).max = some m) :
    (layout_linearly avail sep ds).getD i 0 ≤ m := by
  obtain ⟨_, _, _, hmax, _, _⟩ := layoutFull_spec avail sep ds
  exact hmax hv i m hm

theorem C2_witness :
    (layout_linearly 4 0 [Demand.from_to 1 2, Demand.from_to 1 3]).getD 1 0 ≤ 3 :=
  C2_respect_maxima 4 0 [Demand.from_to 1 2, Demand.from_to 1 3]
    (by decide) 1 3 (by decide)

/-- C3: whenever the available extent covers the minima of elements
`0 … i` together with the `i` separators before element `i`, the `i`-th
output entry of `layout_linearly` is at least the `i`-th minimum; moreover
the phases after the minimum pass never decrease any assignment. -/
theorem C3_respect_minima (avail sep : Nat) (ds : List Demand) (i : Nat)
    (h : ((ds.take (i + 1)).map Demand.min).sum + i * sep ≤ avail) :
    (dAt ds i).min ≤ (layout_linearly avail sep ds).getD i 0 ∧
    (∀ j, (minPass sep ds avail).assigned.getD j 0
      ≤ (layout_linearly avail sep ds).getD j 0) := by
  obtain ⟨_, _, hmono, _, _, _⟩ := layoutFull_spec avail sep ds
  refine ⟨?_, hmono⟩
  have hcov := minPass_covers sep ds avail i h
  rw [← hcov]
  exact hmono i

theorem C3_witness :
    (1 : Nat) ≤ (layout_linearly 10 1 [Demand.exact 3, Demand.at_least 1]).getD 1 0 :=
  (C3_respect_minima 10 1 [Demand.exact 3, Demand.at_least 1] 1 (by decide)).1

/-- C6: the four reference vectors of the specification, computed by the
embedded allocator. -/
theorem C6_reference_vectors :
    layout_linearly 4 0 [Demand.at_least 1, Demand.at_least 1] = [2, 2] ∧
    layout_linearly 4 0 [Demand.at_least 1, Demand.at_least 2] = [2, 2] ∧
    layout_linearly 4 0 [Demand.at_least 5, Demand.at_least 2] = [4, 0] ∧
    layout_linearly 10 1 [Demand.exact 3, Demand.at_least 1] = [3, 6] := by
  refine ⟨?_, ?_, ?_, ?_⟩ <;> decide

/-! ### Demand-aggregation lemmas -/

theorem Demand.add_assoc (a b c : Demand) : (a.add b).add c = a.add (b.add c) := by
  obtain ⟨am, ax⟩ := a
  obtain ⟨bm, bx⟩ := b
  obtain ⟨cm, cx⟩ := c
  cases ax <;> cases bx <;> cases cx <;> simp [Demand.add, Nat.add_assoc]

theorem Demand.maxD_assoc (a b c : Demand) : (a.maxD b).maxD c = a.maxD (b.maxD c) := by
  obtain ⟨am, ax⟩ := a
  obtain ⟨bm, bx⟩ := b
  obtain ⟨cm, cx⟩ := c
  cases ax <;> cases bx <;> cases cx <;> simp [Demand.maxD, Nat.max_assoc]

theorem sumDemands_nil : sumDemands [] = Demand.exact 0 := by
  simp [sumDemands, Demand.exact]

theorem maxDemands_nil : maxDemands [] = Demand.exact 0 := by
  simp [maxDemands, Demand.exact]

theorem sumDemands_cons (d : Demand) (l : List Demand) :
    sumDemands (d :: l) = d.add (sumDemands l) := by
  obtain ⟨dm, dx⟩ := d
  cases dx with
  | none => simp [sumDemands, Demand.add]
  | some a =>
    by_cases hall : l.all (fun d => d.max.isSome) = true
    · simp [sumDemands, Demand.add, hall]
    · simp only [Bool.not_eq_true] at hall
      simp [sumDemands, Demand.add, hall]

theorem maxDemands_cons (d : Demand) (l : List Demand) :
    maxDemands (d :: l) = d.maxD (maxDemands l) := by
  obtain ⟨dm, dx⟩ := d
  cases dx with
  | none => simp [maxDemands, Demand.maxD]
  | some a =>
    by_cases hall : l.all (fun d => d.max.isSome) = true
    · simp [maxDemands, Demand.maxD, hall]
    · simp only [Bool.not_eq_true] at hall
      simp [maxDemands, Demand.maxD, hall]

theorem exact_zero_add (d : Demand) : (Demand.exact 0).add d = d := by
  obtain ⟨dm, dx⟩ := d
  cases dx <;> simp [Demand.add, Demand.exact]

theorem exact_zero_maxD (d : Demand) : (Demand.exact 0).maxD d = d := by
  obtain ⟨dm, dx⟩ := d
  cases dx <;> simp [Demand.maxD, Demand.exact]

theorem spaceDemandLoop_spec (proj cross : Demand2D → Demand) :
    ∀ (ws : List Demand2D) (tx ty : Demand) (n : Nat),
    (spaceDemandLoop proj cross ws tx ty n).1 = tx.add (sumDemands (ws.map proj)) ∧
    (spaceDemandLoop proj cross ws tx ty n).2.1
      = ty.maxD (maxDemands (ws.map cross)) ∧
    (spaceDemandLoop proj cross ws tx ty n).2.2 = n + ws.length := by
  intro ws
  induction ws with
  | nil =>
    intro tx ty n
    simp only [spaceDemandLoop, List.map_nil, sumDemands_nil, maxDemands_nil,
      List.length_nil, Nat.add_zero]
    refine ⟨?_, ?_, by trivial⟩
    · obtain ⟨tm, txx⟩ := tx
      cases txx <;> simp [Demand.add, Demand.exact]
    · obtain ⟨tm, tyy⟩ := ty
      cases tyy <;> simp [Demand.maxD, Demand.exact]
  | cons w ws ih =>
    intro tx ty n
    simp only [spaceDemandLoop, List.map_cons, sumDemands_cons, maxDemands_cons,
      List.length_cons]
    obtain ⟨ih1, ih2, ih3⟩ := ih (tx.add (proj w)) (ty.maxD (cross w)) (n + 1)
    refine ⟨?_, ?_, ?_⟩
    · rw [ih1, Demand.add_assoc]
    · rw [ih2, Demand.maxD_assoc]
    · rw [ih3]
      omega

/-! ### Composer lemmas -/

theorem composeEvents_nil (drawSep : Bool) (sepLen restLen i : Nat) :
    composeEvents drawSep sepLen [] restLen i = [] := rfl

theorem composeEvents_cons (drawSep : Bool) (sepLen : Nat) (pos : Nat)
    (rest : List Nat) (restLen i : Nat) :
    composeEvents drawSep sepLen (pos :: rest) restLen i =
      DrawEvent.child i pos restLen ::
        (if drawSep ∧ rest ≠ [] ∧ 0 < restLen - pos then
          DrawEvent.sep sepLen (restLen - pos) ::
            composeEvents drawSep sepLen rest (restLen - pos - sepLen) (i + 1)
        else composeEvents drawSep sepLen rest (restLen - pos) (i + 1)) := rfl

theorem composeEvents_ne_nil (drawSep : Bool) (sepLen : Nat) (pos : Nat)
    (rest : List Nat) (restLen i : Nat) :
    composeEvents drawSep sepLen (pos :: rest) restLen i ≠ [] := by
  rw [composeEvents_cons]
  simp

theorem lastIsChildOrEmpty_cons_of_ne_nil (e : DrawEvent) (es : List DrawEvent)
    (h : es ≠ []) : lastIsChildOrEmpty (e :: es) = lastIsChildOrEmpty es := by
  cases es with
  | nil => exact absurd rfl h
  | cons f fs =>
    unfold lastIsChildOrEmpty
    rw [List.getLast?_cons_cons]

theorem composeEvents_children (drawSep : Bool) (sepLen : Nat) :
    ∀ (as : List Nat) (restLen i : Nat),
    (composeEvents drawSep sepLen as restLen i).filterMap childIndexOf
      = List.range' i as.length ∧
    (composeEvents drawSep sepLen as restLen i).filterMap childOffsetOf = as := by
  intro as
  induction as with
  | nil =>
    intro restLen i
    simp [composeEvents_nil]
  | cons pos rest ih =>
    intro restLen i
    rw [composeEvents_cons]
    split
    · obtain ⟨ih1, ih2⟩ := ih (restLen - pos - sepLen) (i + 1)
      simp only [List.filterMap_cons, childIndexOf, childOffsetOf, List.length_cons,
        List.range'_succ]
      rw [ih1, ih2]
      refine ⟨?_, ?_⟩ <;> trivial
    · obtain ⟨ih1, ih2⟩ := ih (restLen - pos) (i + 1)
      simp only [List.filterMap_cons, childIndexOf, childOffsetOf, List.length_cons,
        List.range'_succ]
      rw [ih1, ih2]
      refine ⟨?_, ?_⟩ <;> trivial

theorem composeEvents_sep_facts (drawSep : Bool) (sepLen : Nat) :
    ∀ (as : List Nat) (restLen i : Nat),
    sepCount (composeEvents drawSep sepLen as restLen i) ≤ as.length - 1 ∧
    lastIsChildOrEmpty (composeEvents drawSep sepLen as restLen i) = true := by
  intro as
  induction as with
  | nil =>
    intro restLen i
    simp [composeEvents_nil, sepCount, lastIsChildOrEmpty]
  | cons pos rest ih =>
    intro restLen i
    rw [composeEvents_cons]
    split
    · rename_i hcond
      obtain ⟨ih1, ih2⟩ := ih (restLen - pos - sepLen) (i + 1)
      have hrest : rest ≠ [] := hcond.2.1
      obtain ⟨r0, rrest, rfl⟩ : ∃ r0 rrest, rest = r0 :: rrest := by
        cases rest with
        | nil => exact absurd rfl hrest
        | cons a b => exact ⟨a, b, rfl⟩
      constructor
      · simp only [sepCount, List.filter_cons] at ih1 ⊢
        simp only [List.length_cons]
        simp at ih1 ⊢
        omega
      · rw [lastIsChildOrEmpty_cons_of_ne_nil _ _ (by simp [composeEvents_ne_nil]),
          lastIsChildOrEmpty_cons_of_ne_nil _ _ (composeEvents_ne_nil _ _ _ _ _ _)]
        exact ih2
    · obtain ⟨ih1, ih2⟩ := ih (restLen - pos) (i + 1)
      constructor
      · simp only [sepCount, List.filter_cons] at ih1 ⊢
        simp only [List.length_cons]
        simp at ih1 ⊢
        omega
      · cases hre : rest with
        | nil =>
          subst hre
          simp [composeEvents_nil, lastIsChildOrEmpty]
        | cons r0 rrest =>
          subst hre
          rw [lastIsChildOrEmpty_cons_of_ne_nil _ _ (composeEvents_ne_nil _ _ _ _ _ _)]
          exact ih2

/-! ### Claim theorems: facades and composer -/

/-- C7 (amended): `HorizontalLayout::space_demand` returns the demand-sum of
the children's widths and the demand-maximum of their heights, and
`VerticalLayout::space_demand` the demand-sum of the heights and the
demand-maximum of the widths; when the separating style is `Draw` the code
adds `Demand::exact(count)` — i.e. `count` exact units, not `count - 1` as
the original claim stated — to the main-axis total. -/
theorem C7_space_demand_amended (style : SeparatingStyle) (ws : List Demand2D) :
    (HorizontalLayout.space_demand style ws).width
      = (sumDemands (ws.map Demand2D.width)).add
          (if style.isDraw then Demand.exact ws.length else Demand.exact 0) ∧
    (HorizontalLayout.space_demand style ws).height
      = maxDemands (ws.map Demand2D.height) ∧
    (VerticalLayout.space_demand style ws).height
      = (sumDemands (ws.map Demand2D.height)).add
          (if style.isDraw then Demand.exact ws.length else Demand.exact 0) ∧
    (VerticalLayout.space_demand style ws).width
      = maxDemands (ws.map Demand2D.width) := by
  obtain ⟨h1, h2, h3⟩ := spaceDemandLoop_spec (fun w => w.width) (fun w => w.height)
    ws (Demand.exact 0) (Demand.exact 0) 0
  obtain ⟨v1, v2, v3⟩ := spaceDemandLoop_spec (fun w => w.height) (fun w => w.width)
    ws (Demand.exact 0) (Demand.exact 0) 0
  have hadd0 : ∀ d : Demand, d.add (Demand.exact 0) = d := by
    intro d
    obtain ⟨dm, dx⟩ := d
    cases dx <;> simp [Demand.add, Demand.exact]
  cases style with
  | None =>
    simp only [HorizontalLayout.space_demand, VerticalLayout.space_demand,
      SeparatingStyle.isDraw, if_neg Bool.false_ne_true]
    rw [h1, h2, v1, v2]
    rw [exact_zero_add, exact_zero_maxD, exact_zero_add, exact_zero_maxD]
    exact ⟨(hadd0 _).symm, rfl, (hadd0 _).symm, rfl⟩
  | AlternatingStyle m =>
    simp only [HorizontalLayout.space_demand, VerticalLayout.space_demand,
      SeparatingStyle.isDraw, if_neg Bool.false_ne_true]
    rw [h1, h2, v1, v2]
    rw [exact_zero_add, exact_zero_maxD, exact_zero_add, exact_zero_maxD]
    exact ⟨(hadd0 _).symm, rfl, (hadd0 _).symm, rfl⟩
  | Draw c =>
    simp only [HorizontalLayout.space_demand, VerticalLayout.space_demand,
      SeparatingStyle.isDraw, if_pos rfl]
    rw [h1, h2, h3, v1, v2, v3]
    rw [exact_zero_add, exact_zero_maxD, exact_zero_add, exact_zero_maxD]
    simp only [Nat.zero_add]
    refine ⟨?_, ?_, ?_, ?_⟩ <;> trivial

/-- C7 counterexample: for a single child of width demand `exact 2` under a
`Draw` separating style, the claim as stated predicts a width demand of
`exact 2` (the child sum plus `count - 1 = 0` separator units), but
`HorizontalLayout::space_demand` returns `exact 3` (it adds
`Demand::exact(n_elements)` with `n_elements = 1`). -/
theorem C7_counterexample :
    ¬ ((HorizontalLayout.space_demand (SeparatingStyle.Draw ⟨1⟩)
        [⟨Demand.exact 2, Demand.exact 1⟩]).width = Demand.exact 2) := by
  decide

/-- C8 (evaluation at the failing input): a horizontal layout on a window of
width `1` with a `Draw` separator whose cell is two columns wide and two
zero-width children requests a separator split at offset `2` on a region of
extent `1`; the split-validity check fails, so the `expect("valid split
pos")` branch of `draw_linearly` is reached. -/
theorem C8_failing_split :
    splitsValid (drawLinearlyH 1 (SeparatingStyle.Draw ⟨2⟩)
      [Demand.exact 0, Demand.exact 0]) = false := by
  decide

/-- C9 (amended): a `Draw` separator occupies exactly one unit of height
(the vertical main axis) but its own cell display width — one unit only for
single-column cells — along the horizontal main axis; and in either
direction the composer emits at most `count - 1` separator fills and never
one after the last child. -/
theorem C9_draw_separator_amended :
    (∀ c : GraphemeCluster, (SeparatingStyle.Draw c).height = 1 ∧
      (SeparatingStyle.Draw c).width = c.width) ∧
    (∀ (L : Nat) (style : SeparatingStyle) (ds : List Demand),
      sepCount (drawLinearlyH L style ds) ≤ ds.length - 1 ∧
      lastIsChildOrEmpty (drawLinearlyH L style ds) = true ∧
      sepCount (drawLinearlyV L style ds) ≤ ds.length - 1 ∧
      lastIsChildOrEmpty (drawLinearlyV L style ds) = true) := by
  refine ⟨fun c => ⟨rfl, rfl⟩, ?_⟩
  intro L style ds
  obtain ⟨hH1, hH2⟩ := composeEvents_sep_facts style.isDraw style.width
    (layout_linearly L style.width ds) L 0
  obtain ⟨hV1, hV2⟩ := composeEvents_sep_facts style.isDraw style.height
    (layout_linearly L style.height ds) L 0
  obtain ⟨hlenH, _⟩ := layoutFull_spec L style.width ds
  obtain ⟨hlenV, _⟩ := layoutFull_spec L style.height ds
  rw [hlenH] at hH1
  rw [hlenV] at hV1
  exact ⟨hH1, hH2, hV1, hV2⟩

/-- C9 counterexample: a `Draw` separator whose grapheme cell is two columns
wide occupies two units, not one, along the horizontal main axis. -/
theorem C9_counterexample :
    ¬ ((SeparatingStyle.Draw ⟨2⟩).width = 1) := by
  decide

/-- The part of a split/draw sequence that really happens: `draw_linearly`
performs its split requests in order and the process aborts at the first
out-of-bounds request (the `expect` on `split_h`/`split_v` panics before
anything further runs), so only the events before the first invalid request
take effect. -/
def abortTrace (es : List DrawEvent) : List DrawEvent := es.takeWhile eventValid

theorem abortTrace_of_splitsValid (es : List DrawEvent)
    (h : splitsValid es = true) : abortTrace es = es := by
  unfold abortTrace
  induction es with
  | nil => rfl
  | cons e rest ih =>
    unfold splitsValid at h
    rw [List.all_cons, Bool.and_eq_true] at h
    rw [List.takeWhile_cons_of_pos h.1, ih h.2]

/-- C10 (amended): provided every split request of the composer is within
the extent of the region it splits — so the `expect` on `split_h`/`split_v`
never aborts — `draw_linearly` draws each widget exactly once, in list
order (the child-draw events carry the indices `0, …, n-1` in order), and
the offsets it requests for the children are exactly the allocator's
output, including zero offsets, whose widgets are still drawn into an empty
head region rather than skipped.  (The unconditional claim is refuted by
`C10_counterexample`: on an input where a split request is out of bounds
the process aborts and the remaining widgets are never drawn.) -/
theorem C10_draw_each_once_amended (L : Nat) (style : SeparatingStyle)
    (ds : List Demand)
    (hH : splitsValid (drawLinearlyH L style ds) = true)
    (hV : splitsValid (drawLinearlyV L style ds) = true) :
    (abortTrace (drawLinearlyH L style ds)).filterMap childIndexOf
      = List.range ds.length ∧
    (abortTrace (drawLinearlyH L style ds)).filterMap childOffsetOf
      = layout_linearly L style.width ds ∧
    (abortTrace (drawLinearlyV L style ds)).filterMap childIndexOf
      = List.range ds.length ∧
    (abortTrace (drawLinearlyV L style ds)).filterMap childOffsetOf
      = layout_linearly L style.height ds := by
  rw [abortTrace_of_splitsValid _ hH, abortTrace_of_splitsValid _ hV]
  obtain ⟨hH1, hH2⟩ := composeEvents_children style.isDraw style.width
    (layout_linearly L style.width ds) L 0
  obtain ⟨hV1, hV2⟩ := composeEvents_children style.isDraw style.height
    (layout_linearly L style.height ds) L 0
  obtain ⟨hlenH, _⟩ := layoutFull_spec L style.width ds
  obtain ⟨hlenV, _⟩ := layoutFull_spec L style.height ds
  rw [hlenH] at hH1
  rw [hlenV] at hV1
  rw [List.range_eq_range']
  exact ⟨hH1, hH2, hV1, hV2⟩

/-- C10 counterexample to the original unconditional statement: on a window
of width `1` with a `Draw` separator two columns wide and two zero-width
widgets, the composer's separator split at offset `2` on a region of extent
`1` aborts the process, so the trace that really happens draws widget `0`
but never widget `1`. -/
theorem C10_counterexample :
    ¬ ((abortTrace (drawLinearlyH 1 (SeparatingStyle.Draw ⟨2⟩)
        [Demand.exact 0, Demand.exact 0])).filterMap childIndexOf
      = List.range 2) := by
  decide

/-- Witness for C10 at a concrete input: on a window of width `10` with a
single-column `Draw` separator and demands `[exact 3, at_least 1]` every
split is in bounds and both widgets are drawn, in order. -/
theorem C10_witness :
    (abortTrace (drawLinearlyH 10 (SeparatingStyle.Draw ⟨1⟩)
        [Demand.exact 3, Demand.at_least 1])).filterMap childIndexOf
      = List.range 2 :=
  (C10_draw_each_once_amended 10 (SeparatingStyle.Draw ⟨1⟩)
    [Demand.exact 3, Demand.at_least 1] (by decide) (by decide)).1

/-! ### Fairness analysis of the equalization loop -/

/-- Fairness invariant of the equalization loop, relative to a ghost `base`
assignment (the minimum-pass output): every entry stays at or above `base`;
all unfinished entries sit at or above a common level `T` and the raised ones
(strictly above `base`) sit exactly at `T`; every raised entry is either
still unfinished or has reached its maximum; and at a `break` exit there is a
prefix of the unfinished list, longer than the remaining space, whose
entries all equal the common level. -/
theorem equalize_fairness (ds : List Demand) (base : List Nat) :
    ∀ (fuel : Nat) (assigned : List Nat) (avail : Nat) (unf : List Nat),
    avail + unf.length < fuel →
    unf.Nodup →
    (∀ idx ∈ unf, idx < assigned.length) →
    (∀ j, base.getD j 0 ≤ assigned.getD j 0) →
    (∃ T, (∀ idx ∈ unf, T ≤ assigned.getD idx 0) ∧
      (∀ idx ∈ unf, base.getD idx 0 < assigned.getD idx 0 →
        assigned.getD idx 0 = T)) →
    (∀ j, base.getD j 0 < assigned.getD j 0 →
      j ∈ unf ∨ ∃ m, (dAt ds j).max = some m ∧ m ≤ assigned.getD j 0) →
    (∀ j, base.getD j 0 ≤ (equalize ds fuel assigned avail unf).assigned.getD j 0) ∧
    (∀ j, base.getD j 0 < (equalize ds fuel assigned avail unf).assigned.getD j 0 →
      j ∈ (equalize ds fuel assigned avail unf).unfinished ∨
      ∃ m, (dAt ds j).max = some m ∧
        m ≤ (equalize ds fuel assigned avail unf).assigned.getD j 0) ∧
    ((equalize ds fuel assigned avail unf).broke = true →
      ∃ K T, (equalize ds fuel assigned avail unf).avail < K ∧
        K ≤ (equalize ds fuel assigned avail unf).unfinished.length ∧
        (∀ idx ∈ (equalize ds fuel assigned avail unf).unfinished.take K,
          (equalize ds fuel assigned avail unf).assigned.getD idx 0 = T) ∧
        (∀ idx ∈ (equalize ds fuel assigned avail unf).unfinished,
          T ≤ (equalize ds fuel assigned avail unf).assigned.getD idx 0) ∧
        (∀ idx ∈ (equalize ds fuel assigned avail unf).unfinished,
          base.getD idx 0 < (equalize ds fuel assigned avail unf).assigned.getD idx 0 →
          (equalize ds fuel assigned avail unf).assigned.getD idx 0 = T)) := by
  intro fuel
  induction fuel with
  | zero =>
    intro assigned avail unf hfuel _ _ _ _ _
    exact absurd hfuel (by omega)
  | succ fuel ih =>
    intro assigned avail unf hfuel hnd hbnd hB1 hB2 hB3
    cases hs : sortByKey (fun i => assigned.getD i 0) unf with
    | nil =>
      have hperm := sortByKey_perm (fun i => assigned.getD i 0) unf
      rw [hs] at hperm
      have hunf : unf = [] := hperm.symm.eq_nil
      rw [equalize_succ_empty ds fuel assigned avail unf hs]
      subst hunf
      refine ⟨hB1, ?_, ?_⟩
      · intro j hj
        rcases hB3 j hj with hin | hex
        · simp at hin
        · exact Or.inr hex
      · intro hcontra
        simp at hcontra
    | cons idx0 rest0 =>
      have hperm := sortByKey_perm (fun i => assigned.getD i 0) unf
      rw [hs] at hperm
      have hsorted := sortByKey_sorted (fun i => assigned.getD i 0) unf
      rw [hs] at hsorted
      have hnd_s : (idx0 :: rest0).Nodup := by
        rw [← hs]
        exact sortByKey_nodup _ _ hnd
      have hbnd_s : ∀ idx ∈ idx0 :: rest0, idx < assigned.length :=
        fun idx hid => hbnd idx (hperm.mem_iff.1 hid)
      have hlen_s : (idx0 :: rest0).length = unf.length := hperm.length_eq
      have hall : ∀ x ∈ idx0 :: rest0, assigned.getD idx0 0 ≤ assigned.getD x 0 := by
        intro x hx
        rcases List.mem_cons.1 hx with rfl | hx2
        · exact Nat.le_refl _
        · exact (List.pairwise_cons.1 hsorted).1 x hx2
      obtain ⟨lr, hlr⟩ : ∃ x, ladder (fun i => assigned.getD i 0) avail
          (idx0 :: rest0) 0 0 0 0 = x := ⟨_, rfl⟩
      obtain ⟨planned, hpl⟩ : ∃ p, p = lr.pinc + (avail - lr.pts) / lr.ne := ⟨_, rfl⟩
      obtain ⟨hnepos, hnele, hminpl, hplub, hspend, hbreakf⟩ :=
        equalize_step_facts ds assigned avail idx0 rest0 lr planned hsorted hlr hpl
      obtain ⟨T0, hT0all, hT0raised⟩ := hB2
      have hT0min : idx0 ∈ unf → T0 ≤ assigned.getD idx0 0 := fun hm => hT0all idx0 hm
      have hidx0unf : idx0 ∈ unf := hperm.mem_iff.1 (List.mem_cons_self _ _)
      by_cases hbr : assigned.getD idx0 0 = planned
      · rw [equalize_succ_break ds fuel assigned avail unf idx0 rest0 lr planned
          hs hlr hpl hbr]
        have hraised_T : ∀ idx ∈ idx0 :: rest0,
            base.getD idx 0 < assigned.getD idx 0 →
            assigned.getD idx 0 = assigned.getD idx0 0 := by
          intro idx hid hr
          have h1 := hT0raised idx (hperm.mem_iff.1 hid) hr
          have h2 := hall idx hid
          have h3 := hT0min hidx0unf
          omega
        refine ⟨hB1, ?_, ?_⟩
        · intro j hj
          rcases hB3 j hj with hin | hex
          · exact Or.inl (hperm.mem_iff.2 hin)
          · exact Or.inr hex
        · intro _
          obtain ⟨hlt, htakeeq⟩ := hbreakf hbr
          refine ⟨lr.ne, assigned.getD idx0 0, hlt, hnele, htakeeq, hall, hraised_T⟩
      · rw [equalize_succ_go ds fuel assigned avail unf idx0 rest0 lr planned
          hs hlr hpl hbr]
        have hmslt : assigned.getD idx0 0 < planned := Nat.lt_of_le_of_ne hminpl hbr
        obtain ⟨dlen, dfr, dmem, dav, dsum, dstill⟩ :=
          distribute_spec ds planned (idx0 :: rest0) assigned avail hnd_s hbnd_s
        obtain ⟨D, hD⟩ : ∃ x, distribute ds planned (idx0 :: rest0) assigned avail = x :=
          ⟨_, rfl⟩
        rw [hD] at dlen dfr dmem dav dsum dstill
        rw [hD]
        have hnd_still : D.2.2.Nodup := by
          rw [dstill]
          exact List.Nodup.filter _ hnd_s
        have hmem_still : ∀ idx ∈ D.2.2, idx ∈ idx0 :: rest0 := by
          intro idx hid
          rw [dstill] at hid
          exact (List.mem_filter.1 hid).1
        have hbnd_still : ∀ idx ∈ D.2.2, idx < D.1.length := by
          intro idx hid
          rw [dlen]
          exact hbnd_s idx (hmem_still idx hid)
        have hlen_still : D.2.2.length ≤ (idx0 :: rest0).length := by
          rw [dstill]
          exact (List.filter_sublist _).length_le
        have hsum_cons : (((idx0 :: rest0)).map fun idx =>
            (increaseFor (dAt ds idx).max planned (assigned.getD idx 0)).1).sum
            = (increaseFor (dAt ds idx0).max planned (assigned.getD idx0 0)).1
              + ((rest0).map fun idx =>
                (increaseFor (dAt ds idx).max planned (assigned.getD idx 0)).1).sum := by
          simp
        have hmeasure : D.2.1 + D.2.2.length < fuel := by
          cases hkeep : (increaseFor (dAt ds idx0).max planned (assigned.getD idx0 0)).2 with
          | true =>
            obtain ⟨hinc0, _⟩ := increaseFor_keep _ _ _ hkeep
            have hinc0ge : 1 ≤ (increaseFor (dAt ds idx0).max planned
                (assigned.getD idx0 0)).1 := by
              rw [hinc0]
              omega
            have hSge : 1 ≤ (((idx0 :: rest0)).map fun idx =>
                (increaseFor (dAt ds idx).max planned (assigned.getD idx 0)).1).sum := by
              rw [hsum_cons]
              omega
            have hav1 : 1 ≤ avail := by omega
            have hD21 : D.2.1 + 1 ≤ avail := by
              rw [dav]
              omega
            have hkbound : D.2.2.length ≤ unf.length := by omega
            omega
          | false =>
            have hcond : ¬ ((increaseFor (dAt ds idx0).max planned
                (assigned.getD idx0 0)).2 = true) := by
              rw [hkeep]
              simp
            have hstillshort : D.2.2.length ≤ rest0.length := by
              rw [dstill, List.filter_cons, if_neg hcond]
              exact (List.filter_sublist _).length_le
            have hdav : D.2.1 ≤ avail := by
              rw [dav]
              omega
            have hlen_s2 : rest0.length + 1 = unf.length := by
              rw [← hlen_s]
              simp
            omega
        -- base stays below the distributed assignment
        have hB1d : ∀ j, base.getD j 0 ≤ D.1.getD j 0 := by
          intro j
          by_cases hj : j ∈ idx0 :: rest0
          · rw [dmem j hj]
            exact le_trans (hB1 j) (Nat.le_add_right _ _)
          · rw [dfr j hj]
            exact hB1 j
        -- every entry that is raised at entry sits at most at `minSpace`
        have hentry_raised_le : ∀ idx ∈ idx0 :: rest0,
            base.getD idx 0 < assigned.getD idx 0 →
            assigned.getD idx 0 ≤ assigned.getD idx0 0 := by
          intro idx hid hr
          have h1 := hT0raised idx (hperm.mem_iff.1 hid) hr
          have h3 := hT0min hidx0unf
          omega
        -- kept entries end exactly at `planned` or keep their old value
        have hkept_val : ∀ idx ∈ idx0 :: rest0,
            (increaseFor (dAt ds idx).max planned (assigned.getD idx 0)).2 = true →
            D.1.getD idx 0 = assigned.getD idx 0 + (planned - assigned.getD idx 0) := by
          intro idx hid hk
          obtain ⟨hinc, _⟩ := increaseFor_keep _ _ _ hk
          rw [dmem idx hid, hinc]
        have hB2d : ∃ T, (∀ idx ∈ D.2.2, T ≤ D.1.getD idx 0) ∧
            (∀ idx ∈ D.2.2, base.getD idx 0 < D.1.getD idx 0 →
              D.1.getD idx 0 = T) := by
          refine ⟨planned, ?_, ?_⟩
          · intro idx hid
            have hid_s := hmem_still idx hid
            have hk : (increaseFor (dAt ds idx).max planned (assigned.getD idx 0)).2
                = true := by
              rw [dstill] at hid
              exact (List.mem_filter.1 hid).2
            rw [hkept_val idx hid_s hk]
            omega
          · intro idx hid hr
            have hid_s := hmem_still idx hid
            have hk : (increaseFor (dAt ds idx).max planned (assigned.getD idx 0)).2
                = true := by
              rw [dstill] at hid
              exact (List.mem_filter.1 hid).2
            rw [hkept_val idx hid_s hk] at hr ⊢
            by_cases hcmp : assigned.getD idx 0 ≤ planned
            · omega
            · -- the old value exceeds the planned level: the entry was not
              -- raised before, so it is not raised now either
              exfalso
              have hloc : base.getD idx 0 < assigned.getD idx 0 := by omega
              have := hentry_raised_le idx hid_s hloc
              omega
        have hB3d : ∀ j, base.getD j 0 < D.1.getD j 0 →
            j ∈ D.2.2 ∨ ∃ m, (dAt ds j).max = some m ∧ m ≤ D.1.getD j 0 := by
          intro j hj
          by_cases hjs : j ∈ idx0 :: rest0
          · cases hk : (increaseFor (dAt ds j).max planned (assigned.getD j 0)).2 with
            | true =>
              left
              rw [dstill]
              exact List.mem_filter.2 ⟨hjs, hk⟩
            | false =>
              right
              obtain ⟨m, hm, _, hinc⟩ := increaseFor_drop _ _ _ hk
              refine ⟨m, hm, ?_⟩
              rw [dmem j hjs, hinc]
              omega
          · rw [dfr j hjs] at hj
            rcases hB3 j hj with hin | hex
            · exact absurd (hperm.mem_iff.2 hin) hjs
            · right
              rw [dfr j hjs]
              exact hex
        exact ih D.1 D.2.1 D.2.2 hmeasure hnd_still hbnd_still hB1d hB2d hB3d

/-- The remainder pass raises exactly the first `avail` unfinished entries by
one unit each and leaves the remaining unfinished entries unchanged. -/
theorem remainderPass_values (ds : List Demand) :
    ∀ (us : List Nat) (assigned : List Nat) (avail : Nat),
    us.Nodup →
    (∀ idx ∈ us, idx < assigned.length) →
    avail ≤ us.length →
    (∀ idx ∈ us.take avail, (remainderPass assigned avail us).1.getD idx 0
        = assigned.getD idx 0 + 1) ∧
    (∀ idx ∈ us, idx ∉ us.take avail →
      (remainderPass assigned avail us).1.getD idx 0 = assigned.getD idx 0) := by
  intro us
  induction us with
  | nil =>
    intro assigned avail _ _ hle
    have : avail = 0 := by simpa using hle
    subst this
    rw [remainderPass_nil]
    exact ⟨by simp, by simp⟩
  | cons idx rest ih =>
    intro assigned avail hnd hbnd hle
    rw [List.nodup_cons] at hnd
    have hidx : idx < assigned.length := hbnd idx (List.mem_cons_self idx rest)
    cases avail with
    | zero =>
      rw [remainderPass_cons_zero]
      exact ⟨by simp, fun _ _ _ => rfl⟩
    | succ v =>
      rw [remainderPass_cons_succ]
      have hbnd2 : ∀ j ∈ rest,
          j < (assigned.set idx (assigned.getD idx 0 + 1)).length := by
        intro j hj
        rw [List.length_set]
        exact hbnd j (List.mem_cons_of_mem idx hj)
      have hvle : v ≤ rest.length := by
        simp only [List.length_cons] at hle
        omega
      obtain ⟨ih1, ih2⟩ := ih (assigned.set idx (assigned.getD idx 0 + 1)) v hnd.2 hbnd2 hvle
      obtain ⟨_, _, _, rfr, _, _, _⟩ :=
        remainderPass_spec ds rest (assigned.set idx (assigned.getD idx 0 + 1)) v
          hnd.2 hbnd2
      have hset_idx : (assigned.set idx (assigned.getD idx 0 + 1)).getD idx 0
          = assigned.getD idx 0 + 1 := getD_set_self hidx _ _
      have hset_ne : ∀ j, j ≠ idx →
          (assigned.set idx (assigned.getD idx 0 + 1)).getD j 0 = assigned.getD j 0 := by
        intro j hj
        exact getD_set_ne (fun heq => hj heq.symm) _ _
      constructor
      · intro x hx
        rw [List.take_succ_cons] at hx
        rcases List.mem_cons.1 hx with rfl | hx2
        · rw [rfr x hnd.1, hset_idx]
        · have hxrest : x ∈ rest := List.take_subset _ _ hx2
          have hxne : x ≠ idx := fun heq => hnd.1 (heq ▸ hxrest)
          rw [ih1 x hx2, hset_ne x hxne]
      · intro x hx hnotin
        rw [List.take_succ_cons] at hnotin
        have hxne : x ≠ idx := fun heq => hnotin (heq ▸ List.mem_cons_self _ _)
        have hxrest : x ∈ rest := by
          rcases List.mem_cons.1 hx with rfl | hx2
          · exact absurd rfl hxne
          · exact hx2
        have hxnotin : x ∉ rest.take v := fun hc => hnotin (List.mem_cons_of_mem _ hc)
        rw [ih2 x hxrest hxnotin, hset_ne x hxne]

/-- C4 (amended): the original claim — all elements not capped by their own
maximum end within one unit of each other — is refuted by
`C4_counterexample`, because the minimum pass alone can create arbitrary
gaps between uncapped elements.  The fairness that the code does provide is
over the equalization phases: any two output entries that are not capped by
their own maximum and lie strictly above their minimum-pass assignment
differ by at most one unit. -/
theorem C4_fairness_amended (avail sep : Nat) (ds : List Demand) (i j : Nat)
    (hui : specUnfinishedB ds (layout_linearly avail sep ds) i = true)
    (huj : specUnfinishedB ds (layout_linearly avail sep ds) j = true)
    (hri : (minPass sep ds avail).assigned.getD i 0
      < (layout_linearly avail sep ds).getD i 0)
    (hrj : (minPass sep ds avail).assigned.getD j 0
      < (layout_linearly avail sep ds).getD j 0) :
    (layout_linearly avail sep ds).getD i 0
      ≤ (layout_linearly avail sep ds).getD j 0 + 1 := by
  by_cases hc : (minPass sep ds avail).completed = true
  · have hfuel : (minPass sep ds avail).avail + (minPass sep ds avail).unfinished.length
        < (minPass sep ds avail).avail + (minPass sep ds avail).unfinished.length + 1 := by
      omega
    have hndu : (minPass sep ds avail).unfinished.Nodup :=
      List.Pairwise.imp (fun h => Nat.ne_of_lt h) (minPass_unfinished_sorted sep ds avail)
    have hbndu : ∀ idx ∈ (minPass sep ds avail).unfinished,
        idx < (minPass sep ds avail).assigned.length := by
      intro idx hid
      rw [minPass_length]
      exact (minPass_unfinished_mem sep ds avail idx hid).1
    obtain ⟨clen, _, _, _, cnodup, cmem, _, _, _, _, cnobroke⟩ :=
      equalize_core ds
        ((minPass sep ds avail).avail + (minPass sep ds avail).unfinished.length + 1)
        (minPass sep ds avail).assigned (minPass sep ds avail).avail
        (minPass sep ds avail).unfinished hfuel hndu hbndu
    obtain ⟨_, F2, F3⟩ :=
      equalize_fairness ds (minPass sep ds avail).assigned
        ((minPass sep ds avail).avail + (minPass sep ds avail).unfinished.length + 1)
        (minPass sep ds avail).assigned (minPass sep ds avail).avail
        (minPass sep ds avail).unfinished hfuel hndu hbndu
        (fun k => Nat.le_refl _)
        ⟨0, fun idx _ => Nat.zero_le _, fun idx _ hlt => absurd hlt (Nat.lt_irrefl _)⟩
        (fun k hk => absurd hk (Nat.lt_irrefl _))
    obtain ⟨er, her⟩ : ∃ x, equalize ds
        ((minPass sep ds avail).avail + (minPass sep ds avail).unfinished.length + 1)
        (minPass sep ds avail).assigned (minPass sep ds avail).avail
        (minPass sep ds avail).unfinished = x := ⟨_, rfl⟩
    rw [her] at clen cnodup cmem cnobroke F2 F3
    by_cases hb : er.broke = true
    · have heq := layoutFull_eq_broke avail sep ds hc (by rw [her]; exact hb)
      rw [her] at heq
      have hout : layout_linearly avail sep ds
          = (remainderPass er.assigned er.avail er.unfinished).1 := by
        unfold layout_linearly
        rw [heq]
      obtain ⟨K, T, hKlt, hKle, htake, hallT, hraisedT⟩ := F3 hb
      have hbnd2 : ∀ idx ∈ er.unfinished, idx < er.assigned.length := by
        intro idx hid
        rw [clen, minPass_length]
        exact (minPass_unfinished_mem sep ds avail idx (cmem idx hid)).1
      have hle2 : er.avail ≤ er.unfinished.length := by omega
      obtain ⟨hbump, hkeep⟩ :=
        remainderPass_values ds er.unfinished er.assigned er.avail cnodup hbnd2 hle2
      obtain ⟨_, _, _, rfr, _, _, _⟩ :=
        remainderPass_spec ds er.unfinished er.assigned er.avail cnodup hbnd2
      have key : ∀ x,
          specUnfinishedB ds (remainderPass er.assigned er.avail er.unfinished).1 x
            = true →
          (minPass sep ds avail).assigned.getD x 0
            < (remainderPass er.assigned er.avail er.unfinished).1.getD x 0 →
          T ≤ (remainderPass er.assigned er.avail er.unfinished).1.getD x 0 ∧
            (remainderPass er.assigned er.avail er.unfinished).1.getD x 0 ≤ T + 1 := by
        intro x hux hrx
        have hxin : x ∈ er.unfinished := by
          by_contra hxnot
          have hRx : (remainderPass er.assigned er.avail er.unfinished).1.getD x 0
              = er.assigned.getD x 0 := rfr x hxnot
          rw [hRx] at hrx
          rcases F2 x hrx with hmem | ⟨m, hm, hmle⟩
          · exact hxnot hmem
          · unfold specUnfinishedB at hux
            rw [hm] at hux
            have hlt := of_decide_eq_true hux
            rw [hRx] at hlt
            omega
        by_cases hx2 : x ∈ er.unfinished.take er.avail
        · have h1 : (er.unfinished.take K).take er.avail
              = er.unfinished.take er.avail := by
            rw [List.take_take, Nat.min_eq_left (Nat.le_of_lt hKlt)]
          have hxK : x ∈ er.unfinished.take K := by
            apply List.take_subset er.avail
            rw [h1]
            exact hx2
          have hv := hbump x hx2
          rw [hv, htake x hxK]
          omega
        · have hv := hkeep x hxin hx2
          rw [hv] at hrx ⊢
          have hT := hraisedT x hxin hrx
          omega
      rw [hout] at hui huj hri hrj ⊢
      obtain ⟨hTi1, hTi2⟩ := key i hui hri
      obtain ⟨hTj1, hTj2⟩ := key j huj hrj
      omega
    · have hb2 : er.broke = false := by
        cases hbb : er.broke
        · rfl
        · exact absurd hbb hb
      have heq := layoutFull_eq_nobroke avail sep ds hc (by rw [her]; exact hb2)
      rw [her] at heq
      have hout : layout_linearly avail sep ds = er.assigned := by
        unfold layout_linearly
        rw [heq]
      rw [hout] at hui hri
      rcases F2 i hri with hmem | ⟨m, hm, hmle⟩
      · rw [cnobroke hb2] at hmem
        simp at hmem
      · unfold specUnfinishedB at hui
        rw [hm] at hui
        exact absurd (of_decide_eq_true hui) (Nat.not_lt.2 hmle)
  · have hc2 : (minPass sep ds avail).completed = false := by
      cases hcc : (minPass sep ds avail).completed
      · rfl
      · exact absurd hcc hc
    have heq := layoutFull_eq_not_completed avail sep ds hc2
    have hout : layout_linearly avail sep ds = (minPass sep ds avail).assigned := by
      unfold layout_linearly
      rw [heq]
    rw [hout] at hri
    exact absurd hri (Nat.lt_irrefl _)

/-- C4, counterexample to the original statement: with demands
`[at_least 5, at_least 2]`, available 4 and separator 0 the output is
`[4, 0]`; both elements lack a maximum, hence are uncapped, yet the
allocations differ by 4. -/
theorem C4_counterexample :
    ¬ (specUnfinishedB [Demand.at_least 5, Demand.at_least 2]
          (layout_linearly 4 0 [Demand.at_least 5, Demand.at_least 2]) 0 = true →
        specUnfinishedB [Demand.at_least 5, Demand.at_least 2]
          (layout_linearly 4 0 [Demand.at_least 5, Demand.at_least 2]) 1 = true →
        (layout_linearly 4 0 [Demand.at_least 5, Demand.at_least 2]).getD 0 0
          ≤ (layout_linearly 4 0 [Demand.at_least 5, Demand.at_least 2]).getD 1 0
            + 1) := by
  decide

/-- Witness for C4 at a concrete input: demands `[at_least 0, at_least 0]`,
available 4, separator 0 give the output `[2, 2]`; both entries are uncapped
and raised, and the conclusion holds. -/
theorem C4_witness :
    (layout_linearly 4 0 [Demand.at_least 0, Demand.at_least 0]).getD 0 0
      ≤ (layout_linearly 4 0 [Demand.at_least 0, Demand.at_least 0]).getD 1 0 + 1 :=
  C4_fairness_amended 4 0 [Demand.at_least 0, Demand.at_least 0] 0 1
    (by decide) (by decide) (by decide) (by decide)

/-! ### Correspondence between the checked twin and the plain allocator -/

/-- The checked minimum pass never fails and agrees with the plain one: both
subtractions are of quantities bounded by the minuend by construction. -/
theorem minPassC_eq (sep : Nat) (ds : List Demand) :
    ∀ avail, minPassC sep ds avail = some (minPass sep ds avail) := by
  induction ds with
  | nil => intro avail; rfl
  | cons d rest ih =>
    intro avail
    have h1 : csub avail (Nat.min avail d.min) = some (avail - Nat.min avail d.min) := by
      unfold csub
      rw [if_pos (Nat.min_le_left avail d.min)]
    by_cases hb : avail - Nat.min avail d.min ≤ lastSep rest sep
    · simp [minPassC, minPass, h1, hb]
    · have h2 : csub (avail - Nat.min avail d.min) (lastSep rest sep)
          = some (avail - Nat.min avail d.min - lastSep rest sep) := by
        unfold csub
        rw [if_pos (by omega)]
      simp [minPassC, minPass, h1, h2, hb, ih]

/-- On a list sorted by key with the running maximum below every remaining
key, the checked ladder loop never fails and agrees with the plain one. -/
theorem ladderC_eq (key : Nat → Nat) (avail : Nat) :
    ∀ (l : List Nat) (i pts pinc ne : Nat),
      (∀ x ∈ l, pinc ≤ key x) →
      l.Pairwise (fun a b => key a ≤ key b) →
      ladderC key avail l i pts pinc ne = some (ladder key avail l i pts pinc ne) := by
  intro l
  induction l with
  | nil => intro i pts pinc ne _ _; rfl
  | cons idx rest ih =>
    intro i pts pinc ne hlb hsorted
    have h1 : csub (key idx) pinc = some (key idx - pinc) := by
      unfold csub
      rw [if_pos (hlb idx (List.mem_cons_self _ _))]
    by_cases hc : avail < pts + (key idx - pinc) * i
    · simp [ladderC, ladder, h1, hc]
    · have hrest := List.pairwise_cons.1 hsorted
      simp [ladderC, ladder, h1, hc,
        ih (i + 1) (pts + (key idx - pinc) * i) (key idx) (i + 1) hrest.1 hrest.2]

/-- When the total increase over the index list fits in the available space
and the indices are distinct, the checked distribution loop never fails and
agrees with the plain one. -/
theorem distributeC_eq (ds : List Demand) (planned : Nat) :
    ∀ (l : List Nat) (assigned : List Nat) (avail : Nat),
      l.Nodup →
      ((l.map fun idx => (increaseFor (dAt ds idx).max planned
        (assigned.getD idx 0)).1).sum ≤ avail) →
      distributeC ds planned l assigned avail
        = some (distribute ds planned l assigned avail) := by
  intro l
  induction l with
  | nil => intro assigned avail _ _; rfl
  | cons idx rest ih =>
    intro assigned avail hnd hsum
    rw [List.nodup_cons] at hnd
    rw [List.map_cons, List.sum_cons] at hsum
    have h1 : csub avail (increaseFor (dAt ds idx).max planned (assigned.getD idx 0)).1
        = some (avail
          - (increaseFor (dAt ds idx).max planned (assigned.getD idx 0)).1) := by
      unfold csub
      rw [if_pos (by omega)]
    have hmap : (rest.map fun k => (increaseFor (dAt ds k).max planned
        ((assigned.set idx (assigned.getD idx 0
          + (increaseFor (dAt ds idx).max planned (assigned.getD idx 0)).1)).getD k 0)).1)
        = rest.map fun k =>
            (increaseFor (dAt ds k).max planned (assigned.getD k 0)).1 := by
      refine List.map_congr_left ?_
      intro k hk
      rw [getD_set_ne (fun heq => hnd.1 (by rw [heq]; exact hk)) _ _]
    have hrec := ih (assigned.set idx (assigned.getD idx 0
        + (increaseFor (dAt ds idx).max planned (assigned.getD idx 0)).1))
      (avail - (increaseFor (dAt ds idx).max planned (assigned.getD idx 0)).1)
      hnd.2 (by rw [hmap]; omega)
    simp only [distributeC, distribute]
    rw [h1]
    simp only [Option.bind_eq_bind, Option.some_bind]
    rw [hrec]
    simp only [Option.some_bind]

/-- When every listed index is strictly below its maximum, the checked
remainder pass never fails and agrees with the plain one. -/
theorem remainderC_eq (ds : List Demand) :
    ∀ (us : List Nat) (assigned : List Nat) (avail : Nat),
      us.Nodup →
      (∀ idx ∈ us, ∀ m, (dAt ds idx).max = some m → assigned.getD idx 0 < m) →
      remainderC ds assigned avail us = some (remainderPass assigned avail us) := by
  intro us
  induction us with
  | nil => intro assigned avail _ _; rfl
  | cons idx rest ih =>
    intro assigned avail hnd hstrict
    rw [List.nodup_cons] at hnd
    by_cases hav : avail = 0
    · simp [remainderC, remainderPass, hav]
    · have hok : (match (dAt ds idx).max with
          | Option.none => true
          | some m => decide (assigned.getD idx 0 < m)) = true := by
        cases hm : (dAt ds idx).max with
        | none => rfl
        | some m =>
          exact decide_eq_true (hstrict idx (List.mem_cons_self _ _) m hm)
      have hrec := ih (assigned.set idx (assigned.getD idx 0 + 1)) (avail - 1) hnd.2
        (by
          intro k hk m hm
          rw [getD_set_ne (fun heq => hnd.1 (by rw [heq]; exact hk)) _ _]
          exact hstrict k (List.mem_cons_of_mem idx hk) m hm)
      simp only [remainderC, remainderPass]
      rw [if_neg hav, if_neg hav, if_pos hok, hrec]

theorem equalizeC_succ_empty (ds : List Demand) (fuel : Nat) (assigned : List Nat)
    (avail : Nat) (unf : List Nat)
    (hs : sortByKey (fun i => assigned.getD i 0) unf = []) :
    equalizeC ds (fuel + 1) assigned avail unf = some ⟨assigned, avail, [], false⟩ := by
  simp only [equalizeC, hs]

theorem equalizeC_succ_break (ds : List Demand) (fuel : Nat) (assigned : List Nat)
    (avail : Nat) (unf : List Nat) (idx0 : Nat) (rest0 : List Nat) (lr : LadderResult)
    (planned : Nat)
    (hs : sortByKey (fun i => assigned.getD i 0) unf = idx0 :: rest0)
    (hlrC : ladderC (fun i => assigned.getD i 0) avail (idx0 :: rest0) 0 0 0 0 = some lr)
    (hpts : lr.pts ≤ avail)
    (hne : ¬ (lr.ne = 0))
    (hpl : planned = lr.pinc + (avail - lr.pts) / lr.ne)
    (hbr : assigned.getD idx0 0 = planned) :
    equalizeC ds (fuel + 1) assigned avail unf
      = some ⟨assigned, avail, idx0 :: rest0, true⟩ := by
  subst hpl
  have hcs : csub avail lr.pts = some (avail - lr.pts) := by
    unfold csub
    rw [if_pos hpts]
  simp only [equalizeC, hs]
  rw [hlrC]
  simp only [Option.bind_eq_bind, Option.some_bind]
  rw [hcs]
  simp only [Option.some_bind]
  rw [if_neg hne, if_pos hbr]

theorem equalizeC_succ_go (ds : List Demand) (fuel : Nat) (assigned : List Nat)
    (avail : Nat) (unf : List Nat) (idx0 : Nat) (rest0 : List Nat) (lr : LadderResult)
    (planned : Nat) (D : List Nat × Nat × List Nat)
    (hs : sortByKey (fun i => assigned.getD i 0) unf = idx0 :: rest0)
    (hlrC : ladderC (fun i => assigned.getD i 0) avail (idx0 :: rest0) 0 0 0 0 = some lr)
    (hpts : lr.pts ≤ avail)
    (hne : ¬ (lr.ne = 0))
    (hpl : planned = lr.pinc + (avail - lr.pts) / lr.ne)
    (hbr : ¬ (assigned.getD idx0 0 = planned))
    (hlt : assigned.getD idx0 0 < planned)
    (hdist : distributeC ds planned (idx0 :: rest0) assigned avail = some D) :
    equalizeC ds (fuel + 1) assigned avail unf = equalizeC ds fuel D.1 D.2.1 D.2.2 := by
  subst hpl
  have hcs : csub avail lr.pts = some (avail - lr.pts) := by
    unfold csub
    rw [if_pos hpts]
  simp only [equalizeC, hs]
  rw [hlrC]
  simp only [Option.bind_eq_bind, Option.some_bind]
  rw [hcs]
  simp only [Option.some_bind]
  rw [if_neg hne, if_neg hbr, if_neg (by omega : ¬ (lr.pinc + (avail - lr.pts) / lr.ne
      ≤ assigned.getD idx0 0))]
  rw [hdist]
  simp only [Option.some_bind]

/-- With sufficient fuel and distinct, in-bounds unfinished indices, the
checked equalization loop never fails and agrees with the plain one: the
ladder subtractions are protected by sortedness, `num_equalized` is positive
whenever the loop body runs, the `left_to_spend` subtraction is protected by
the ladder break condition, the distributed increases fit in the available
space, and the `debug_assert` on the planned space holds. -/
theorem equalizeC_eq (ds : List Demand) :
    ∀ (fuel : Nat) (assigned : List Nat) (avail : Nat) (unf : List Nat),
      avail + unf.length < fuel →
      unf.Nodup →
      (∀ idx ∈ unf, idx < assigned.length) →
      equalizeC ds fuel assigned avail unf
        = some (equalize ds fuel assigned avail unf) := by
  intro fuel
  induction fuel with
  | zero =>
    intro assigned avail unf hfuel _ _
    exact absurd hfuel (by omega)
  | succ fuel ih =>
    intro assigned avail unf hfuel hnd hbnd
    cases hs : sortByKey (fun i => assigned.getD i 0) unf with
    | nil =>
      rw [equalize_succ_empty ds fuel assigned avail unf hs]
      exact equalizeC_succ_empty ds fuel assigned avail unf hs
    | cons idx0 rest0 =>
      have hperm := sortByKey_perm (fun i => assigned.getD i 0) unf
      rw [hs] at hperm
      have hsorted := sortByKey_sorted (fun i => assigned.getD i 0) unf
      rw [hs] at hsorted
      have hnd_s : (idx0 :: rest0).Nodup := by
        rw [← hs]
        exact sortByKey_nodup _ _ hnd
      have hbnd_s : ∀ idx ∈ idx0 :: rest0, idx < assigned.length :=
        fun idx hid => hbnd idx (hperm.mem_iff.1 hid)
      have hlen_s : (idx0 :: rest0).length = unf.length := hperm.length_eq
      obtain ⟨lr, hlr⟩ : ∃ x, ladder (fun i => assigned.getD i 0) avail
          (idx0 :: rest0) 0 0 0 0 = x := ⟨_, rfl⟩
      obtain ⟨planned, hpl⟩ : ∃ p, p = lr.pinc + (avail - lr.pts) / lr.ne := ⟨_, rfl⟩
      obtain ⟨hnepos, hnele, hminpl, hplub, hspend, hbreakf⟩ :=
        equalize_step_facts ds assigned avail idx0 rest0 lr planned hsorted hlr hpl
      obtain ⟨k, hk, hkne, hptsle, _, _, _, _, _⟩ :=
        ladder_spec (fun i => assigned.getD i 0) avail (idx0 :: rest0) 0 0 0 0
          (Nat.zero_le _) (fun x _ => Nat.zero_le _) hsorted (by simp)
      rw [hlr] at hptsle
      have hlrC : ladderC (fun i => assigned.getD i 0) avail (idx0 :: rest0) 0 0 0 0
          = some lr := by
        rw [ladderC_eq (fun i => assigned.getD i 0) avail (idx0 :: rest0) 0 0 0 0
          (fun x _ => Nat.zero_le _) hsorted, hlr]
      have hne0 : ¬ (lr.ne = 0) := by omega
      by_cases hbr : assigned.getD idx0 0 = planned
      · rw [equalize_succ_break ds fuel assigned avail unf idx0 rest0 lr planned hs hlr
          hpl hbr]
        exact equalizeC_succ_break ds fuel assigned avail unf idx0 rest0 lr planned hs
          hlrC hptsle hne0 hpl hbr
      · have hmslt : assigned.getD idx0 0 < planned := Nat.lt_of_le_of_ne hminpl hbr
        obtain ⟨dlen, dfr, dmem, dav, dsum, dstill⟩ :=
          distribute_spec ds planned (idx0 :: rest0) assigned avail hnd_s hbnd_s
        obtain ⟨D, hD⟩ : ∃ x, distribute ds planned (idx0 :: rest0) assigned avail = x :=
          ⟨_, rfl⟩
        rw [hD] at dlen dfr dmem dav dsum dstill
        have hnd_still : D.2.2.Nodup := by
          rw [dstill]
          exact List.Nodup.filter _ hnd_s
        have hmem_still : ∀ idx ∈ D.2.2, idx ∈ idx0 :: rest0 := by
          intro idx hid
          rw [dstill] at hid
          exact (List.mem_filter.1 hid).1
        have hbnd_still : ∀ idx ∈ D.2.2, idx < D.1.length := by
          intro idx hid
          rw [dlen]
          exact hbnd_s idx (hmem_still idx hid)
        have hlen_still : D.2.2.length ≤ (idx0 :: rest0).length := by
          rw [dstill]
          exact (List.filter_sublist _).length_le
        have hsum_cons : (((idx0 :: rest0)).map fun idx =>
            (increaseFor (dAt ds idx).max planned (assigned.getD idx 0)).1).sum
            = (increaseFor (dAt ds idx0).max planned (assigned.getD idx0 0)).1
              + ((rest0).map fun idx =>
                (increaseFor (dAt ds idx).max planned (assigned.getD idx 0)).1).sum := by
          simp
        have hmeasure : D.2.1 + D.2.2.length < fuel := by
          cases hkeep : (increaseFor (dAt ds idx0).max planned (assigned.getD idx0 0)).2 with
          | true =>
            obtain ⟨hinc0, _⟩ := increaseFor_keep _ _ _ hkeep
            have hinc0ge : 1 ≤ (increaseFor (dAt ds idx0).max planned
                (assigned.getD idx0 0)).1 := by
              rw [hinc0]
              omega
            have hSge : 1 ≤ (((idx0 :: rest0)).map fun idx =>
                (increaseFor (dAt ds idx).max planned (assigned.getD idx 0)).1).sum := by
              rw [hsum_cons]
              omega
            have hav1 : 1 ≤ avail := by omega
            have hD21 : D.2.1 + 1 ≤ avail := by
              rw [dav]
              omega
            have hkbound : D.2.2.length ≤ unf.length := by omega
            omega
          | false =>
            have hcond : ¬ ((increaseFor (dAt ds idx0).max planned
                (assigned.getD idx0 0)).2 = true) := by
              rw [hkeep]
              simp
            have hstillshort : D.2.2.length ≤ rest0.length := by
              rw [dstill, List.filter_cons, if_neg hcond]
              exact (List.filter_sublist _).length_le
            have hdav : D.2.1 ≤ avail := by
              rw [dav]
              omega
            have hlen_s2 : rest0.length + 1 = unf.length := by
              rw [← hlen_s]
              simp
            omega
        have hdistC : distributeC ds planned (idx0 :: rest0) assigned avail = some D := by
          rw [distributeC_eq ds planned (idx0 :: rest0) assigned avail hnd_s hspend, hD]
        rw [equalizeC_succ_go ds fuel assigned avail unf idx0 rest0 lr planned D hs hlrC
          hptsle hne0 hpl hbr hmslt hdistC]
        rw [equalize_succ_go ds fuel assigned avail unf idx0 rest0 lr planned hs hlr
          hpl hbr]
        rw [hD]
        exact ih D.1 D.2.1 D.2.2 hmeasure hnd_still hbnd_still

/-- C5: for every demand list in which each maximum (when present) is at
least the minimum, and all non-negative available and separator extents, the
checked twin of the allocator — in which every fallible step of the source
(`try_into_positive().unwrap()`, the `expect` on the ladder subtraction,
the division by `num_equalized`, and the `debug_assert!`s) is a guard, and
whose equalization loop returns `none` when its fuel runs out — succeeds
and returns exactly the plain allocator's output.  In particular the
iterative ladder-equalization loop terminates within
`avail + unfinished + 1` iterations and no internal underflow or assertion
failure is reachable. -/
theorem C5_totality (avail sep : Nat) (ds : List Demand)
    (hv : allValid ds = true) :
    layoutC avail sep ds = some (layout_linearly avail sep ds) := by
  have hmp := minPassC_eq sep ds avail
  by_cases hc : (minPass sep ds avail).completed = true
  · have hfuel : (minPass sep ds avail).avail + (minPass sep ds avail).unfinished.length
        < (minPass sep ds avail).avail + (minPass sep ds avail).unfinished.length + 1 := by
      omega
    have hndu : (minPass sep ds avail).unfinished.Nodup :=
      List.Pairwise.imp (fun h => Nat.ne_of_lt h) (minPass_unfinished_sorted sep ds avail)
    have hbndu : ∀ idx ∈ (minPass sep ds avail).unfinished,
        idx < (minPass sep ds avail).assigned.length := by
      intro idx hid
      rw [minPass_length]
      exact (minPass_unfinished_mem sep ds avail idx hid).1
    have heqC := equalizeC_eq ds
      ((minPass sep ds avail).avail + (minPass sep ds avail).unfinished.length + 1)
      (minPass sep ds avail).assigned (minPass sep ds avail).avail
      (minPass sep ds avail).unfinished hfuel hndu hbndu
    obtain ⟨clen, _, _, _, cnodup, cmem, _, _, cstrict, cbrokelt, _⟩ :=
      equalize_core ds
        ((minPass sep ds avail).avail + (minPass sep ds avail).unfinished.length + 1)
        (minPass sep ds avail).assigned (minPass sep ds avail).avail
        (minPass sep ds avail).unfinished hfuel hndu hbndu
    obtain ⟨er, her⟩ : ∃ x, equalize ds
        ((minPass sep ds avail).avail + (minPass sep ds avail).unfinished.length + 1)
        (minPass sep ds avail).assigned (minPass sep ds avail).avail
        (minPass sep ds avail).unfinished = x := ⟨_, rfl⟩
    rw [her] at heqC clen cnodup cmem cstrict cbrokelt
    by_cases hb : er.broke = true
    · have hstrictEr : ∀ idx ∈ er.unfinished, ∀ m, (dAt ds idx).max = some m →
          er.assigned.getD idx 0 < m :=
        cstrict (minPass_unfinished_strict sep ds avail hv)
      have hbnd2 : ∀ idx ∈ er.unfinished, idx < er.assigned.length := by
        intro idx hid
        rw [clen, minPass_length]
        exact (minPass_unfinished_mem sep ds avail idx (cmem idx hid)).1
      have hremC := remainderC_eq ds er.unfinished er.assigned er.avail cnodup hstrictEr
      obtain ⟨_, _, _, _, _, rzero, _⟩ :=
        remainderPass_spec ds er.unfinished er.assigned er.avail cnodup hbnd2
      have hz : (remainderPass er.assigned er.avail er.unfinished).2 = 0 :=
        rzero (Nat.le_of_lt (cbrokelt hb))
      have heq := layoutFull_eq_broke avail sep ds hc (by rw [her]; exact hb)
      rw [her] at heq
      have hout : layout_linearly avail sep ds
          = (remainderPass er.assigned er.avail er.unfinished).1 := by
        unfold layout_linearly
        rw [heq]
      rw [hout]
      simp only [layoutC]
      rw [hmp]
      simp only [Option.bind_eq_bind, Option.some_bind]
      rw [if_pos hc, heqC]
      simp only [Option.some_bind]
      rw [if_pos hb, hremC]
      simp only [Option.some_bind]
      rw [if_pos hz]
    · have hb2 : er.broke = false := by
        cases hbb : er.broke
        · rfl
        · exact absurd hbb hb
      have heq := layoutFull_eq_nobroke avail sep ds hc (by rw [her]; exact hb2)
      rw [her] at heq
      have hout : layout_linearly avail sep ds = er.assigned := by
        unfold layout_linearly
        rw [heq]
      rw [hout]
      simp only [layoutC]
      rw [hmp]
      simp only [Option.bind_eq_bind, Option.some_bind]
      rw [if_pos hc, heqC]
      simp only [Option.some_bind]
      rw [if_neg (by simp [hb2] : ¬ (er.broke = true))]
  · have hc2 : (minPass sep ds avail).completed = false := by
      cases hcc : (minPass sep ds avail).completed
      · rfl
      · exact absurd hcc hc
    have heq := layoutFull_eq_not_completed avail sep ds hc2
    have hout : layout_linearly avail sep ds = (minPass sep ds avail).assigned := by
      unfold layout_linearly
      rw [heq]
    rw [hout]
    simp only [layoutC]
    rw [hmp]
    simp only [Option.bind_eq_bind, Option.some_bind]
    rw [if_neg (by simp [hc2] : ¬ ((minPass sep ds avail).completed = true))]

/-- Witness for C5 at a concrete input: the demands
`[exact 3, at_least 1]` are well formed and the checked allocator agrees
with the plain one at available 10, separator 1. -/
theorem C5_witness :
    allValid [Demand.exact 3, Demand.at_least 1] = true ∧
      layoutC 10 1 [Demand.exact 3, Demand.at_least 1]
        = some (layout_linearly 10 1 [Demand.exact 3, Demand.at_least 1]) :=
  ⟨by decide, C5_totality 10 1 [Demand.exact 3, Demand.at_least 1] (by decide)⟩

end Unsegen
